import Mathlib

/-!
# Verification of `data/compacted.go` (package `data`)

A shallow embedding of `CompactedSlice`: the field registry (`index`), the
record codec (`compressStorage` / `uncompressStorage`), `Add`, `Range`,
`Size` and `NewCompactedSlice`, together with `OpenReaderFromURL`
(`uri_helper.go`) and `fileStorageService.Download`
(`storage/file_service.go`), followed by the theorems that settle the
specification's claims about them.

Modelling conventions
* A Go `interface{}` is a `Value`; the nil interface is `Value.nil`.
* A Go `map[string]T` is a `GoMap T`: an association list. For a map that is
  ranged over (the argument of `Add`) the list order is the iteration order
  of that run, so every iteration order is covered by quantifying over lists.
* A run-time panic (index out of range) is an explicit result.
* Calls are executed one at a time (the sequential semantics of the code),
  except in the section on interleavings, where concurrent calls take turns
  at the granularity of critical sections and unsynchronised accesses.
-/

namespace Compacted

/-! ## Values -/

/-- A Go `interface{}` value as `compacted.go` can observe it: the nil
interface, the three scalar kinds `Range` inspects, a run marker of the
package-private type `nilGroup` (`type nilGroup int`), and every other
dynamic type. A `float` carries the IEEE-754 binary64 bit pattern. -/
inductive Value where
  | nil
  | str (s : String)
  | int (n : Int)
  | float (bits : Nat)
  | other (tag : Nat)
  | nilGroup (n : Int)
  deriving DecidableEq, Repr

/-- The type assertion `item.(nilGroup)` of `uncompressStorage`: the carried
count when the dynamic type is `nilGroup`. -/
def Value.asNilGroup : Value → Option Int
  | .nilGroup n => some n
  | _ => none

/-- A dense slot never holds a run marker: `nilGroup` is unexported, so no
caller of the package can place one in a mapping handed to `Add`. -/
def Value.isMarker : Value → Bool
  | .nilGroup _ => true
  | _ => false

/-- A dense array: a positional array of optional caller values (no run marker). -/
def Dense (d : List Value) : Prop := ∀ v ∈ d, v.isMarker = false

instance (d : List Value) : Decidable (Dense d) := by
  unfold Dense; infer_instance

/-! ## Record codec -/

/-- The `switch nilCount` of `compressStorage`: what is appended to
`compressed` before a present item. -/
def flushNils (compressed : List Value) (nilCount : Nat) : List Value :=
  match nilCount with
  | 0 => compressed
  | 1 => compressed ++ [Value.nil]
  | _ => compressed ++ [Value.nilGroup (Int.ofNat nilCount)]

/-- The `for _, item := range data` loop of `compressStorage`, with the loop
variables `compressed` and `nilCount` as accumulators. -/
def compressLoop : List Value → List Value → Nat → List Value
  | [], compressed, _ => compressed
  | item :: rest, compressed, nilCount =>
    if item ≠ Value.nil then
      compressLoop rest (flushNils compressed nilCount ++ [item]) 0
    else
      compressLoop rest compressed (nilCount + 1)

/-- `compressStorage` (compacted.go:55-74). -/
def compressStorage (data : List Value) : List Value :=
  compressLoop data [] 0

/-- Result of running code that indexes a slice: a value, or the run-time
panic "index out of range". -/
inductive Run (α : Type) where
  | ok (a : α)
  | panicked
  deriving DecidableEq, Repr

/-- The inner loop `for j := 0; j < int(nilGroup); j++ { out[index] = nil; index++ }`;
the third argument is the number of iterations left. -/
def writeNils : List Value → Nat → Nat → Run (List Value × Nat)
  | out, index, 0 => .ok (out, index)
  | out, index, j + 1 =>
    if index < out.length then writeNils (out.set index Value.nil) (index + 1) j
    else .panicked

/-- The first loop of `uncompressStorage` over `in`, threading `out` and `index`. -/
def uncompressLoop : List Value → List Value → Nat → Run (List Value × Nat)
  | [], out, index => .ok (out, index)
  | item :: rest, out, index =>
    match item.asNilGroup with
    | none =>
      if index < out.length then uncompressLoop rest (out.set index item) (index + 1)
      else .panicked
    | some n =>
      match writeNils out index n.toNat with
      | .ok (out1, index1) => uncompressLoop rest out1 index1
      | .panicked => .panicked

/-- The final loop `for i := index; i < len(out); i++ { out[i] = nil }`;
the third argument is the number of iterations left. -/
def clearFrom : List Value → Nat → Nat → List Value
  | out, _, 0 => out
  | out, i, k + 1 => clearFrom (out.set i Value.nil) (i + 1) k

/-- `uncompressStorage` (compacted.go:76-94): the contents of `out` after
the call, or a panic. -/
def uncompressStorage (inp out : List Value) : Run (List Value) :=
  match uncompressLoop inp out 0 with
  | .ok (out1, index) => .ok (clearFrom out1 index (out1.length - index))
  | .panicked => .panicked

/-- The dense slots one item of a compacted record stands for: a run marker
carrying `n` stands for `n` absent slots, any other item for itself. -/
def expandItem (item : Value) : List Value :=
  match item.asNilGroup with
  | some n => List.replicate n.toNat Value.nil
  | none => [item]

/-- The dense slots a compacted record stands for. -/
def expand : List Value → List Value
  | [] => []
  | item :: rest => expandItem item ++ expand rest

/-! ## Go maps -/

/-- A Go `map[string]T`, as an association list with distinct keys. -/
abbrev GoMap (α : Type) := List (String × α)

/-- Map lookup `m[k]` with the comma-ok result. -/
def mapGet {α : Type} : GoMap α → String → Option α
  | [], _ => none
  | (k1, v) :: rest, k => if k1 = k then some v else mapGet rest k

/-- Map assignment `m[k] = v`: replaces the entry of `k`, or adds one. -/
def mapSet {α : Type} : GoMap α → String → α → GoMap α
  | [], k, v => [(k, v)]
  | (k1, v1) :: rest, k, v =>
    if k1 = k then (k, v) :: rest else (k1, v1) :: mapSet rest k v

/-- The keys of a map. -/
def mapKeys {α : Type} (m : GoMap α) : List String := m.map Prod.fst

/-- A mapping as a caller of the package can pass it to `Add`: a Go map (no
key occurs twice) whose values are not of the unexported type `nilGroup`. -/
def WellFormed (data : GoMap Value) : Prop :=
  (mapKeys data).Nodup ∧ ∀ e ∈ data, e.2.isMarker = false

instance (data : GoMap Value) : Decidable (WellFormed data) := by
  unfold WellFormed; infer_instance

/-! ## Container state and field registry -/

/-- The struct `field` (compacted.go:9-12). -/
structure field where
  Name : String
  Index : Nat
  deriving DecidableEq, Repr

/-- The struct `CompactedSlice` (compacted.go:17-24) without its lock; `size`
is the `uint64` counter. -/
structure CompactedSlice where
  optimizedStorage : Bool
  fieldNames : GoMap field
  fields : List field
  data : List (List Value)
  size : Nat
  deriving DecidableEq, Repr

/-- `NewCompactedSlice` (compacted.go:161-169). -/
def NewCompactedSlice (optimizedStorage : Bool) : CompactedSlice :=
  { optimizedStorage := optimizedStorage, fieldNames := [], fields := [], data := [], size := 0 }

/-- The conversion `int(x)` of a `uint64` on a 64-bit platform. -/
def toInt64 (x : Nat) : Int :=
  if x % 2 ^ 64 < 2 ^ 63 then Int.ofNat (x % 2 ^ 64) else Int.ofNat (x % 2 ^ 64) - 2 ^ 64

/-- `Size` (compacted.go:26-28). -/
def Size (s : CompactedSlice) : Int := toInt64 s.size

/-- `index` (compacted.go:30-44): the state after the call and the returned index. -/
def index (s : CompactedSlice) (fieldName : String) : CompactedSlice × Nat :=
  match mapGet s.fieldNames fieldName with
  | some f => (s, f.Index)
  | none =>
    let f : field := { Name := fieldName, Index := s.fieldNames.length }
    ({ s with fieldNames := mapSet s.fieldNames fieldName f,
              fields := s.fields ++ [f],
              size := 0 }, f.Index)

/-- `expandIfNeeded` (compacted.go:46-53): the loop appends `size - len(data)` nils. -/
def expandIfNeeded (size : Nat) (data : List Value) : List Value :=
  if size ≥ data.length then data ++ List.replicate (size - data.length) Value.nil else data

/-- The `for k, v := range data` loop of `Add`; the list order of `data` is
the iteration order. -/
def addLoop : CompactedSlice → List Value → GoMap Value → CompactedSlice × List Value
  | s, record, [] => (s, record)
  | s, record, (k, v) :: rest =>
    let (s1, i) := index s k
    let record1 := if ¬ (i < record.length) then expandIfNeeded (i + 1) record else record
    let record2 := record1.set i v
    let s2 := { s1 with size := (s1.size + 1) % 2 ^ 64 }
    addLoop s2 record2 rest

/-- `Add` (compacted.go:96-114). -/
def Add (s : CompactedSlice) (data : GoMap Value) : CompactedSlice :=
  let initSize := if s.fieldNames.length < data.length then data.length else s.fieldNames.length
  let record := List.replicate initSize Value.nil
  let (s1, record1) := addLoop s record data
  let record2 := if s1.optimizedStorage then compressStorage record1 else record1
  { s1 with data := s1.data ++ [record2] }

/-! ## Drain -/

/-- Modelled from the spec: `toolbox.IsString` is not under src/; the spec's
value kinds are string / integer / float / other. -/
def IsString : Value → Bool
  | .str _ => true
  | _ => false

/-- Modelled from the spec: `toolbox.AsString`, used by `Range` only on a
value for which `IsString` holds. -/
def AsString : Value → String
  | .str s => s
  | _ => ""

/-- Modelled from the spec: `toolbox.IsInt` is not under src/. -/
def IsInt : Value → Bool
  | .int _ => true
  | _ => false

/-- Modelled from the spec: `toolbox.AsInt`, used by `Range` only on a value
for which `IsInt` holds. -/
def AsInt : Value → Int
  | .int n => n
  | _ => 0

/-- Modelled from the spec: `toolbox.IsFloat` is not under src/. -/
def IsFloat : Value → Bool
  | .float _ => true
  | _ => false

/-- Modelled from the spec: `toolbox.AsFloat(value) == 0.0`, used by `Range`
only on a value for which `IsFloat` holds. A binary64 compares equal to zero
exactly when every bit but the sign bit is clear (+0.0 and -0.0). -/
def AsFloatIsZero : Value → Bool
  | .float bits => bits % 2 ^ 63 == 0
  | _ => true

/-- The `continue` conditions of the inner loop of `Range`
(compacted.go:136-151): true when the slot is not copied to the mapping. -/
def skipValue (value : Value) : Bool :=
  if value = Value.nil then true
  else if IsString value then
    if AsString value = "" then true else false
  else if IsInt value then
    if AsInt value = 0 then true else false
  else if IsFloat value then
    if AsFloatIsZero value then true else false
  else false

/-- The loop `for _, field := range fields` of `Range`, threading `aMap`;
`record[index]` panics when `index` is out of range. -/
def buildMap : List field → List Value → GoMap Value → Run (GoMap Value)
  | [], _, aMap => .ok aMap
  | f :: rest, record, aMap =>
    match record[f.Index]? with
    | none => .panicked
    | some value =>
      if skipValue value then buildMap rest record aMap
      else buildMap rest record (mapSet aMap f.Name value)

/-- A Go `error`: `none` is the nil error. -/
abbrev GoError := Option String

/-- The handler passed to `Range`, a closure over its own state `σ`:
it returns `(next, err)` and its state after the call. -/
abbrev Handler (σ : Type) := σ → GoMap Value → (Bool × GoError) × σ

/-- The loop `for _, item := range data` of `Range` (compacted.go:124-157):
what `Range` returns (or a panic) and the handler state at that point. -/
def rangeLoop {σ : Type} (optimizedStorage : Bool) (fields : List field) (handler : Handler σ) :
    List (List Value) → List Value → σ → Run GoError × σ
  | [], _, st => (.ok none, st)
  | item :: rest, record, st =>
    match (if optimizedStorage then uncompressStorage item record else .ok item) with
    | .panicked => (.panicked, st)
    | .ok record1 =>
      match buildMap fields record1 [] with
      | .panicked => (.panicked, st)
      | .ok aMap =>
        match handler st aMap with
        | ((next, err), st1) =>
          if !next || err ≠ none then (.ok err, st1)
          else rangeLoop optimizedStorage fields handler rest record1 st1

/-- `Range` (compacted.go:116-159): the container after the call, the
returned error (or a panic), and the handler state. -/
def Range {σ : Type} (s : CompactedSlice) (handler : Handler σ) (st : σ) :
    CompactedSlice × Run GoError × σ :=
  let fields := s.fields
  let data := s.data
  let s1 := { s with data := [] }
  let record := List.replicate s1.fields.length Value.nil
  (s1, rangeLoop s1.optimizedStorage fields handler data record st)

/-! ## Call sequences and observation of the handler -/

/-- One call on the container. -/
inductive Op (σ : Type) where
  | add (data : GoMap Value)
  | range (handler : Handler σ) (st : σ)

/-- The container after one call. -/
def step {σ : Type} (s : CompactedSlice) : Op σ → CompactedSlice
  | .add data => Add s data
  | .range handler st => (Range s handler st).1

/-- The container after a sequence of calls executed one at a time. -/
def run {σ : Type} (s : CompactedSlice) (ops : List (Op σ)) : CompactedSlice :=
  ops.foldl step s

/-- The container after a sequence of `Add` calls. -/
def addAll (s : CompactedSlice) (ms : List (GoMap Value)) : CompactedSlice :=
  ms.foldl Add s

/-- One observed handler invocation: the mapping received and what was returned. -/
structure Call where
  arg : GoMap Value
  next : Bool
  err : GoError
  deriving DecidableEq, Repr

/-- The handler `h` wrapped so that every invocation is logged, in order. -/
def traced {σ : Type} (h : Handler σ) : Handler (σ × List Call) :=
  fun st aMap =>
    let r := h st.1 aMap
    (r.1, (r.2, st.2 ++ [{ arg := aMap, next := r.1.1, err := r.1.2 }]))

/-- The handler that collects what it receives and always continues. -/
def collect : Handler (List (GoMap Value)) :=
  fun acc aMap => ((true, none), acc ++ [aMap])

/-- A significant value: present, and not the empty string, an integer zero
or a floating-point zero. -/
def significant : Value → Bool
  | .nil => false
  | .str s => s != ""
  | .int n => n != 0
  | .float bits => bits % 2 ^ 63 != 0
  | .other _ => true
  | .nilGroup _ => true

/-! ## Invariants and auxiliary definitions used by the proofs -/

/-- The registry invariant in its strongest form: the map holds exactly the
listed fields, in registration order; positions are indices; names are distinct. -/
def RegInv (s : CompactedSlice) : Prop :=
  s.fieldNames = s.fields.map (fun f => (f.Name, f)) ∧
  (∀ (i : Nat) (f : field), s.fields[i]? = some f → f.Index = i) ∧
  (s.fields.map field.Name).Nodup

/-- The keys of a sequence of mappings, in the order `Add` visits them. -/
def keySequence : List (GoMap Value) → List String
  | [] => []
  | m :: rest => mapKeys m ++ keySequence rest

/-- The set-entry count of a sequence of mappings. -/
def entryCount : List (GoMap Value) → Nat
  | [] => 0
  | m :: rest => m.length + entryCount rest

/-- What the counter holds after the keys `ks` have been visited on a fresh
container: the registered names are the visited keys, and the counter is the
number of keys from the last first-time key on. -/
def SizeInv (s : CompactedSlice) (ks : List String) : Prop :=
  (∀ x, x ∈ mapKeys s.fieldNames ↔ x ∈ ks) ∧
  (ks = [] → s.size = 0) ∧
  (∀ (pre post : List String) (k : String), ks = pre ++ k :: post → k ∉ pre →
    (∀ x ∈ post, x ∈ pre ∨ x = k) → s.size = (post.length + 1) % 2 ^ 64)

/-- The value at position `j` of a record, absent when `j` is out of range. -/
def slot (record : List Value) (j : Nat) : Value := (record[j]?).getD Value.nil

/-- The container after one iteration of the loop of `Add` on key `k`. -/
def touch (s : CompactedSlice) (k : String) : CompactedSlice :=
  { (index s k).1 with size := ((index s k).1.size + 1) % 2 ^ 64 }

/-- The record after one iteration of the loop of `Add`: widened if needed,
then written at `i`. -/
def writeSlot (record : List Value) (i : Nat) (v : Value) : List Value :=
  (if ¬ i < record.length then expandIfNeeded (i + 1) record else record).set i v

/-- Every `Add` of a call sequence is handed a mapping callers can build. -/
def WellFormedOps {σ : Type} : List (Op σ) → Prop
  | [] => True
  | Op.add data :: rest => WellFormed data ∧ WellFormedOps rest
  | Op.range _ _ :: rest => WellFormedOps rest

/-- The store invariant: the registry invariant, and in compacted mode every
buffered record stands for no more slots than there are registered fields. -/
def StoreInv (s : CompactedSlice) : Prop :=
  RegInv s ∧
  (s.optimizedStorage = true → ∀ r ∈ s.data, (expand r).length ≤ s.fields.length)

/-- The dense record `Add` builds before the optional compaction. -/
def denseRecord (s : CompactedSlice) (data : GoMap Value) : List Value :=
  (addLoop s (List.replicate
    (if s.fieldNames.length < data.length then data.length else s.fieldNames.length)
    Value.nil) data).2

/-- The token the spec prescribes before a present value that follows a run
of `k` absent slots: nothing for 0, one nil placeholder for 1, one run marker
carrying `k` for `k ≥ 2`. -/
def runToken : Nat → List Value
  | 0 => []
  | 1 => [Value.nil]
  | k + 2 => [Value.nilGroup (Int.ofNat (k + 2))]

/-- The present values of a dense array in order, each paired with the length
of the maximal run of absent slots right before it; the first argument is the
length of the run that ends where the scan starts. -/
def presentRuns : Nat → List Value → List (Nat × Value)
  | _, [] => []
  | k, item :: rest =>
    if item = Value.nil then presentRuns (k + 1) rest else (k, item) :: presentRuns 0 rest

/-- The tokens for a list of present values with their preceding run lengths. -/
def emitRuns : List (Nat × Value) → List Value
  | [] => []
  | (k, v) :: rest => runToken k ++ v :: emitRuns rest

/-- The reference encoder of the spec (section 4.2), written from its words:
for each present value, the token of its preceding absent run, then the value. -/
def referenceEncode (d : List Value) : List Value := emitRuns (presentRuns 0 d)

/-! ## Interleavings of concurrent calls

Concurrent calls are interleaved at the granularity of the source's critical
sections and shared-memory accesses: one step is either a whole locked
section or one unsynchronised read or write of a shared field. -/

/-- Where a call of `index` stands. -/
inductive IndexPC where
  | start
  | looked (found : Option field)
  | built (f : field)
  | returned (i : Nat)
  deriving DecidableEq, Repr

/-- One step of a call `index(fieldName)` (compacted.go:30-44):
`start`: lines 31-33, the lookup under the read lock;
`looked`: lines 34-37, return on a hit, else build `f` from `len(s.fieldNames)`
(read without a lock);
`built`: lines 38-43, insert, append and reset under the exclusive lock. -/
def indexStep (fieldName : String) (s : CompactedSlice) : IndexPC → CompactedSlice × IndexPC
  | .start => (s, .looked (mapGet s.fieldNames fieldName))
  | .looked (some f) => (s, .returned f.Index)
  | .looked none => (s, .built { Name := fieldName, Index := s.fieldNames.length })
  | .built f =>
    ({ s with fieldNames := mapSet s.fieldNames fieldName f,
              fields := s.fields ++ [f],
              size := 0 }, .returned f.Index)
  | .returned i => (s, .returned i)

/-- Two concurrent calls `index(fieldName)`: the schedule names the caller
(`false` the first, `true` the second) that takes each next step. -/
def indexPair (fieldName : String) :
    CompactedSlice × IndexPC × IndexPC → List Bool → CompactedSlice × IndexPC × IndexPC
  | c, [] => c
  | (s, a, b), false :: rest =>
    indexPair fieldName ((indexStep fieldName s a).1, (indexStep fieldName s a).2, b) rest
  | (s, a, b), true :: rest =>
    indexPair fieldName ((indexStep fieldName s b).1, a, (indexStep fieldName s b).2) rest

/-- Where a call of `Add` stands. -/
inductive AddPC where
  | start
  | built (record : List Value)
  | loaded (old : List (List Value)) (record : List Value)
  | done
  deriving DecidableEq, Repr

/-- One step of a call `Add(data)` (compacted.go:96-114):
`start`: lines 97-112, the record is built (and compacted);
`built`: line 113, `append(s.data, record)` is evaluated, reading `s.data` without a lock;
`loaded`: line 113, the result is stored into `s.data`, without a lock. -/
def addStep (data : GoMap Value) (s : CompactedSlice) : AddPC → CompactedSlice × AddPC
  | .start =>
    let initSize := if s.fieldNames.length < data.length then data.length else s.fieldNames.length
    let r := addLoop s (List.replicate initSize Value.nil) data
    (r.1, .built (if r.1.optimizedStorage then compressStorage r.2 else r.2))
  | .built record => (s, .loaded s.data record)
  | .loaded old record => ({ s with data := old ++ [record] }, .done)
  | .done => (s, .done)

/-- The critical section of `Range` (compacted.go:117-121): the field list and
the record sequence it takes, and the container it leaves behind. -/
def detach (s : CompactedSlice) : List field × List (List Value) × CompactedSlice :=
  (s.fields, s.data, { s with data := [] })

/-- The schedule "`Add` builds its record and evaluates `append(s.data, record)`;
`Range` detaches; `Add` stores": the detached sequence and the container afterwards. -/
def addAroundDetach (data : GoMap Value) (s : CompactedSlice) :
    List (List Value) × CompactedSlice :=
  let a1 := addStep data s AddPC.start
  let a2 := addStep data a1.1 a1.2
  let d := detach a2.1
  let a3 := addStep data d.2.2 a2.2
  (d.2.1, a3.1)

/-- The schedule "the first `Add` builds its record and evaluates
`append(s.data, record)`; the second `Add` runs to its end; the first `Add`
stores": the container afterwards. -/
def addAroundAdd (data1 data2 : GoMap Value) (s : CompactedSlice) : CompactedSlice :=
  let a1 := addStep data1 s AddPC.start
  let a2 := addStep data1 a1.1 a1.2
  let b1 := addStep data2 a2.1 AddPC.start
  let b2 := addStep data2 b1.1 b1.2
  let b3 := addStep data2 b2.1 b2.2
  (addStep data1 b3.1 a2.2).1

/-! ## Storage collaborators (`uri_helper.go`, `storage/file_service.go`) -/

/-- The fields of a parsed `url.URL` that the code reads. -/
structure ParsedURL where
  Scheme : String
  Path : String
  deriving DecidableEq, Repr

/-- An open reader, by what `ioutil.ReadAll` obtains from it: the bytes and
the error. A nil `io.ReadCloser` is `none : Option Reader`. -/
structure Reader where
  data : List Nat
  readErr : GoError
  deriving DecidableEq, Repr

/-- The library calls the collaborators make; a failure carries its message.
`extractMimeType` stands for `ExtractMimeType` (uri_helper.go:15-26), whose
table `FileExtensionMimeType` is not under src/. -/
structure World where
  urlParse : String → Except String ParsedURL
  httpGet : String → Except String (Reader × String)
  osOpen : String → Except String Reader
  extractMimeType : String → String

/-- `OpenReaderFromURL` (uri_helper.go:28-50): the reader (nil on failure),
the mime type and the error. -/
def OpenReaderFromURL (w : World) (rawURL : String) : Option Reader × String × GoError :=
  match w.urlParse rawURL with
  | .error err => (none, "", some err)
  | .ok url =>
    if url.Scheme = "http" ∨ url.Scheme = "https" then
      match w.httpGet rawURL with
      | .error err => (none, "", some err)
      | .ok (body, mimeType) => (some body, mimeType, none)
    else if url.Scheme = "file" then
      match w.osOpen url.Path with
      | .error err => (none, "", some ("Failed to open file: " ++ rawURL ++ " due to " ++ err))
      | .ok file => (some file, w.extractMimeType url.Path, none)
    else (none, "", some ("Unsupprted url.Scheme: " ++ url.Scheme ++ " on " ++ rawURL))

/-- `fileStorageService.Download` (file_service.go:87-97) on an object with
the given URL: the returned reader and error, or a run-time panic.
Line 89-91, `if err != nil { defer reader.Close() }`, evaluates the method
value of the nil interface `reader` when the open failed; line 92,
`ioutil.ReadAll(reader)`, calls `Read` on it: a nil-pointer dereference. -/
def Download (w : World) (objectURL : String) : Run (Option Reader × GoError) :=
  match OpenReaderFromURL w objectURL with
  | (reader, _, err) =>
    if err ≠ none ∧ reader.isNone then Run.panicked
    else
      match reader with
      | none => Run.panicked
      | some r =>
        if r.readErr ≠ none then Run.ok (none, r.readErr)
        else Run.ok (some { data := r.data, readErr := none }, r.readErr)

/-- A world in which `file:///missing.txt` and `ftp://host/a.txt` parse, any
other URL does not, no file exists and no HTTP request succeeds. -/
def sampleWorld : World :=
  { urlParse := fun rawURL =>
      if rawURL = "file:///missing.txt" then .ok { Scheme := "file", Path := "/missing.txt" }
      else if rawURL = "ftp://host/a.txt" then .ok { Scheme := "ftp", Path := "/a.txt" }
      else .error "invalid URL",
    httpGet := fun _ => .error "connection refused",
    osOpen := fun _ => .error "no such file or directory",
    extractMimeType := fun _ => "text/plain" }

/-! ## Theorems -/

/-! ### Codec lemmas -/

theorem flushNils_acc (acc : List Value) (k : Nat) : flushNils acc k = acc ++ flushNils [] k := by
  unfold flushNils
  split <;> simp

theorem compressLoop_acc (d : List Value) : ∀ (acc : List Value) (k : Nat),
    compressLoop d acc k = acc ++ compressLoop d [] k := by
  induction d with
  | nil => intro acc k; simp [compressLoop]
  | cons x rest ih =>
    intro acc k
    simp only [compressLoop]
    split
    · rw [ih (flushNils acc k ++ [x]) 0, ih (flushNils [] k ++ [x]) 0, flushNils_acc acc k]
      simp
    · exact ih acc (k + 1)

theorem expand_append (a b : List Value) : expand (a ++ b) = expand a ++ expand b := by
  induction a with
  | nil => simp [expand]
  | cons x rest ih => simp [expand, ih]

theorem expand_flushNils (k : Nat) : expand (flushNils [] k) = List.replicate k Value.nil := by
  unfold flushNils
  split
  · simp [expand]
  · simp [expand, expandItem, Value.asNilGroup]
  · simp [expand, expandItem, Value.asNilGroup]

theorem expandItem_present (x : Value) (h : x.isMarker = false) : expandItem x = [x] := by
  cases x <;> simp_all [expandItem, Value.asNilGroup, Value.isMarker]

theorem expand_compressLoop (d : List Value) (hd : Dense d) : ∀ k : Nat,
    ∃ t, expand (compressLoop d [] k) ++ List.replicate t Value.nil
      = List.replicate k Value.nil ++ d := by
  induction d with
  | nil => intro k; exact ⟨k, by simp [compressLoop, expand]⟩
  | cons x rest ih =>
    have hrest : Dense rest := fun v hv => hd v (List.mem_cons_of_mem _ hv)
    have hx : x.isMarker = false := hd x (List.mem_cons_self _ _)
    intro k
    by_cases hnil : x = Value.nil
    · subst hnil
      obtain ⟨t, ht⟩ := ih hrest (k + 1)
      refine ⟨t, ?_⟩
      simp only [compressLoop, ne_eq, not_true_eq_false, if_false]
      rw [ht, List.replicate_succ']
      simp
    · obtain ⟨t, ht⟩ := ih hrest 0
      refine ⟨t, ?_⟩
      simp only [compressLoop, ne_eq, hnil, not_false_eq_true, if_true]
      rw [compressLoop_acc, expand_append, expand_append, expand_flushNils]
      simp only [expand, expandItem_present x hx, List.append_nil, List.append_assoc]
      rw [ht]
      simp

theorem writeNils_frame (mid : List Value) : ∀ (pre post : List Value),
    writeNils (pre ++ mid ++ post) pre.length mid.length
      = Run.ok (pre ++ List.replicate mid.length Value.nil ++ post, pre.length + mid.length) := by
  induction mid with
  | nil => intro pre post; simp [writeNils]
  | cons m rest ih =>
    intro pre post
    simp only [writeNils, List.length_cons]
    have hlt : pre.length < (pre ++ m :: rest ++ post).length := by simp
    rw [if_pos hlt]
    have hset : (pre ++ m :: rest ++ post).set pre.length Value.nil
        = (pre ++ [Value.nil]) ++ rest ++ post := by
      simp [List.set_append]
    rw [hset]
    have := ih (pre ++ [Value.nil]) post
    simp only [List.length_append, List.length_singleton] at this
    rw [this]
    simp [List.replicate_succ]
    omega

theorem uncompressLoop_frame (inp : List Value) : ∀ (pre mid post : List Value),
    mid.length = (expand inp).length →
    uncompressLoop inp (pre ++ mid ++ post) pre.length
      = Run.ok (pre ++ expand inp ++ post, pre.length + mid.length) := by
  induction inp with
  | nil =>
    intro pre mid post h
    simp [expand] at h
    subst h
    simp [uncompressLoop, expand]
  | cons item rest ih =>
    intro pre mid post h
    simp only [expand, List.length_append] at h
    cases hg : item.asNilGroup with
    | none =>
      have he : expandItem item = [item] := by simp [expandItem, hg]
      rw [he] at h
      simp only [List.length_singleton] at h
      cases mid with
      | nil => simp at h; omega
      | cons m mid1 =>
        simp only [List.length_cons] at h
        have hlen : mid1.length = (expand rest).length := by omega
        simp only [uncompressLoop, hg]
        have hlt : pre.length < (pre ++ m :: mid1 ++ post).length := by simp
        rw [if_pos hlt]
        have hset : (pre ++ m :: mid1 ++ post).set pre.length item
            = (pre ++ [item]) ++ mid1 ++ post := by
          simp [List.set_append]
        rw [hset]
        have := ih (pre ++ [item]) mid1 post hlen
        simp only [List.length_append, List.length_singleton] at this
        rw [this]
        simp [expand, he]
        omega
    | some n =>
      have he : expandItem item = List.replicate n.toNat Value.nil := by simp [expandItem, hg]
      rw [he] at h
      simp only [List.length_replicate] at h
      simp only [uncompressLoop, hg]
      have hsplit : mid = mid.take n.toNat ++ mid.drop n.toNat := (List.take_append_drop _ _).symm
      have hl1 : (mid.take n.toNat).length = n.toNat := by simp; omega
      have hl2 : (mid.drop n.toNat).length = (expand rest).length := by simp; omega
      have hw := writeNils_frame (mid.take n.toNat) pre (mid.drop n.toNat ++ post)
      rw [hl1] at hw
      have hre : pre ++ mid ++ post = pre ++ mid.take n.toNat ++ (mid.drop n.toNat ++ post) := by
        have hm : mid ++ post = mid.take n.toNat ++ (mid.drop n.toNat ++ post) := by
          rw [← List.append_assoc, List.take_append_drop]
        rw [List.append_assoc pre, hm, List.append_assoc]
      rw [hre, hw]
      simp only
      have := ih (pre ++ List.replicate n.toNat Value.nil) (mid.drop n.toNat) post hl2
      simp only [List.length_append, List.length_replicate, List.append_assoc] at this ⊢
      rw [this]
      simp [expand, he]
      omega

theorem clearFrom_frame (mid : List Value) : ∀ (pre : List Value),
    clearFrom (pre ++ mid) pre.length mid.length = pre ++ List.replicate mid.length Value.nil := by
  induction mid with
  | nil => intro pre; simp [clearFrom]
  | cons m rest ih =>
    intro pre
    simp only [clearFrom, List.length_cons]
    have hset : (pre ++ m :: rest).set pre.length Value.nil = (pre ++ [Value.nil]) ++ rest := by
      simp [List.set_append]
    rw [hset]
    have := ih (pre ++ [Value.nil])
    simp only [List.length_append, List.length_singleton] at this
    rw [this]
    simp [List.replicate_succ]

theorem uncompressStorage_eq (inp out : List Value) (h : (expand inp).length ≤ out.length) :
    uncompressStorage inp out
      = Run.ok (expand inp ++ List.replicate (out.length - (expand inp).length) Value.nil) := by
  have hsplit : out = [] ++ out.take (expand inp).length ++ out.drop (expand inp).length := by simp
  have hl : (out.take (expand inp).length).length = (expand inp).length := by simp; omega
  have h1 := uncompressLoop_frame inp [] (out.take (expand inp).length)
    (out.drop (expand inp).length) hl
  simp only [List.nil_append, List.take_append_drop, List.length_nil, Nat.zero_add] at h1
  unfold uncompressStorage
  rw [h1]
  simp only
  have h2 := clearFrom_frame (out.drop (expand inp).length) (expand inp)
  have hl2 : (expand inp ++ out.drop (expand inp).length).length = out.length := by
    simp; omega
  rw [hl, hl2]
  simp only [List.length_drop] at h2
  rw [h2]


theorem decode_encode (d out : List Value) (hd : Dense d) (h : d.length ≤ out.length) :
    uncompressStorage (compressStorage d) out
      = Run.ok (d ++ List.replicate (out.length - d.length) Value.nil) := by
  obtain ⟨t, ht⟩ := expand_compressLoop d hd 0
  simp only [List.replicate_zero, List.nil_append] at ht
  have hlen : (expand (compressLoop d [] 0)).length + t = d.length := by
    have := congrArg List.length ht
    simpa using this
  unfold compressStorage
  rw [uncompressStorage_eq _ _ (by omega)]
  have hsplit : out.length - (expand (compressLoop d [] 0)).length = t + (out.length - d.length) := by
    omega
  rw [hsplit, List.replicate_add, ← List.append_assoc, ht]

/-! ### Codec round trip -/

/-- C1: decoding `compressStorage d` into an output buffer of length `len d`
(whatever it held before) yields exactly the dense array `d`, for every
pattern of present and absent slots, trailing absent slots included. -/
theorem codec_round_trip (d out : List Value) (hd : Dense d) (hlen : out.length = d.length) :
    uncompressStorage (compressStorage d) out = Run.ok d := by
  rw [decode_encode d out hd (by omega), hlen]
  simp

theorem codec_round_trip_witness :
    Dense [Value.nil, Value.int 7, Value.nil, Value.nil, Value.str "a", Value.nil, Value.nil] ∧
    uncompressStorage
      (compressStorage [Value.nil, Value.int 7, Value.nil, Value.nil, Value.str "a", Value.nil, Value.nil])
      [Value.int 1, Value.int 2, Value.int 3, Value.int 4, Value.int 5, Value.int 6, Value.int 7]
      = Run.ok [Value.nil, Value.int 7, Value.nil, Value.nil, Value.str "a", Value.nil, Value.nil] :=
  ⟨by decide, codec_round_trip _ _ (by decide) (by decide)⟩

/-- C2: decoding `compressStorage d`, `d` of length `n`, into an output
buffer of length `n + m` yields `d` in the first `n` slots and absent values
in the last `m` slots. -/
theorem codec_growth_independent (d out : List Value) (m : Nat) (hd : Dense d)
    (hlen : out.length = d.length + m) :
    uncompressStorage (compressStorage d) out = Run.ok (d ++ List.replicate m Value.nil) := by
  rw [decode_encode d out hd (by omega)]
  have : out.length - d.length = m := by omega
  rw [this]

theorem codec_growth_independent_witness :
    Dense [Value.int 7, Value.nil, Value.str "a", Value.nil] ∧
    uncompressStorage (compressStorage [Value.int 7, Value.nil, Value.str "a", Value.nil])
      [Value.int 1, Value.int 2, Value.int 3, Value.int 4, Value.int 5, Value.int 6]
      = Run.ok ([Value.int 7, Value.nil, Value.str "a", Value.nil] ++ List.replicate 2 Value.nil) :=
  ⟨by decide, codec_growth_independent _ _ 2 (by decide) (by decide)⟩

/-! ### Go maps and the registry invariant -/

theorem mapGet_eq_none_iff {α : Type} (m : GoMap α) (k : String) :
    mapGet m k = none ↔ k ∉ mapKeys m := by
  induction m with
  | nil => simp [mapGet, mapKeys]
  | cons e rest ih =>
    obtain ⟨k1, v⟩ := e
    simp only [mapGet, mapKeys, List.map_cons, List.mem_cons, not_or]
    by_cases h : k1 = k
    · simp [h]
    · simp only [h, if_false]
      rw [ih]
      simp only [mapKeys]
      constructor
      · intro h2; exact ⟨fun h3 => h h3.symm, h2⟩
      · intro h2; exact h2.2

theorem mapSet_of_not_mem {α : Type} (m : GoMap α) (k : String) (v : α) (h : k ∉ mapKeys m) :
    mapSet m k v = m ++ [(k, v)] := by
  induction m with
  | nil => simp [mapSet]
  | cons e rest ih =>
    obtain ⟨k1, v1⟩ := e
    simp only [mapKeys, List.map_cons, List.mem_cons, not_or] at h
    have hne : ¬ k1 = k := fun h3 => h.1 h3.symm
    simp only [mapSet, hne, if_false, List.cons_append]
    rw [ih h.2]

theorem mapGet_mapSet {α : Type} (m : GoMap α) (k k2 : String) (v : α) :
    mapGet (mapSet m k v) k2 = if k = k2 then some v else mapGet m k2 := by
  induction m with
  | nil => simp [mapSet, mapGet]
  | cons e rest ih =>
    obtain ⟨k1, v1⟩ := e
    by_cases h : k1 = k
    · subst h
      by_cases h2 : k1 = k2 <;> simp [mapSet, mapGet, h2]
    · by_cases h2 : k1 = k2
      · subst h2
        simp [mapSet, mapGet, h, Ne.symm h]
      · simp only [mapSet, h, if_false, mapGet, h2, ih]

theorem mapGet_fields (fs : List field) (k : String) (f : field)
    (h : mapGet (fs.map (fun f => (f.Name, f))) k = some f) : f ∈ fs ∧ f.Name = k := by
  induction fs with
  | nil => simp [mapGet] at h
  | cons g rest ih =>
    simp only [List.map_cons, mapGet] at h
    by_cases hk : g.Name = k
    · simp only [hk, if_true, Option.some.injEq] at h
      subst h
      exact ⟨List.mem_cons_self _ _, hk⟩
    · simp only [hk, if_false] at h
      exact ⟨List.mem_cons_of_mem _ (ih h).1, (ih h).2⟩

theorem mapGet_fields_of_mem (fs : List field) (f : field)
    (hnd : (fs.map field.Name).Nodup) (hf : f ∈ fs) :
    mapGet (fs.map (fun f => (f.Name, f))) f.Name = some f := by
  induction fs with
  | nil => simp at hf
  | cons g rest ih =>
    simp only [List.map_cons, List.nodup_cons, List.mem_map, not_exists, not_and] at hnd
    simp only [List.map_cons, mapGet]
    rcases List.mem_cons.mp hf with h | h
    · subst h; simp
    · have hne : ¬ g.Name = f.Name := fun he => hnd.1 f h he.symm
      simp only [hne, if_false]
      exact ih hnd.2 h

theorem mapKeys_fields (fs : List field) :
    mapKeys (fs.map (fun f => (f.Name, f))) = fs.map field.Name := by
  simp [mapKeys, List.map_map, Function.comp_def]

theorem RegInv_new (b : Bool) : RegInv (NewCompactedSlice b) := by
  simp [RegInv, NewCompactedSlice]

theorem RegInv_index (s : CompactedSlice) (k : String) (h : RegInv s) : RegInv (index s k).1 := by
  obtain ⟨hmap, hidx, hnd⟩ := h
  unfold index
  cases hg : mapGet s.fieldNames k with
  | some f => exact ⟨hmap, hidx, hnd⟩
  | none =>
    have hk : k ∉ mapKeys s.fieldNames := (mapGet_eq_none_iff _ _).mp hg
    have hk2 : k ∉ s.fields.map field.Name := by
      rw [hmap, mapKeys_fields] at hk; exact hk
    have hlen : s.fieldNames.length = s.fields.length := by rw [hmap]; simp
    refine ⟨?_, ?_, ?_⟩
    · simp only [mapSet_of_not_mem _ _ _ hk, List.map_append, List.map_cons, List.map_nil]
      rw [← hmap]
    · intro i f hf
      simp only at hf
      by_cases hi : i < s.fields.length
      · rw [List.getElem?_append_left hi] at hf
        exact hidx i f hf
      · rw [List.getElem?_append_right (by omega)] at hf
        have h0 : i - s.fields.length = 0 := by
          by_contra hne
          have : ([ ({ Name := k, Index := s.fieldNames.length } : field) ])[i - s.fields.length]? = none := by
            apply List.getElem?_eq_none; simp; omega
          rw [this] at hf; exact Option.noConfusion hf
        rw [h0] at hf
        simp only [List.getElem?_cons_zero, Option.some.injEq] at hf
        subst hf
        simp only
        omega
    · simp only [List.map_append, List.map_cons, List.map_nil]
      rw [List.nodup_append]
      refine ⟨hnd, by simp, ?_⟩
      intro a ha hb
      simp only [List.mem_singleton] at hb
      subst hb
      exact hk2 ha

theorem addLoop_frame (data : GoMap Value) : ∀ (s : CompactedSlice) (record : List Value),
    (addLoop s record data).1.data = s.data ∧
    (addLoop s record data).1.optimizedStorage = s.optimizedStorage := by
  induction data with
  | nil => intro s record; simp [addLoop]
  | cons e rest ih =>
    intro s record
    obtain ⟨k, v⟩ := e
    simp only [addLoop]
    have h1 : (index s k).1.data = s.data ∧ (index s k).1.optimizedStorage = s.optimizedStorage := by
      unfold index; split <;> simp
    constructor
    · rw [(ih _ _).1]; exact h1.1
    · rw [(ih _ _).2]; exact h1.2

theorem RegInv_addLoop (data : GoMap Value) : ∀ (s : CompactedSlice) (record : List Value),
    RegInv s → RegInv (addLoop s record data).1 := by
  induction data with
  | nil => intro s record h; simpa [addLoop] using h
  | cons e rest ih =>
    intro s record h
    obtain ⟨k, v⟩ := e
    simp only [addLoop]
    apply ih
    have := RegInv_index s k h
    exact ⟨this.1, this.2.1, this.2.2⟩

theorem RegInv_Add (s : CompactedSlice) (data : GoMap Value) (h : RegInv s) :
    RegInv (Add s data) := by
  have := RegInv_addLoop data s
    (List.replicate (if s.fieldNames.length < data.length then data.length else s.fieldNames.length)
      Value.nil) h
  exact ⟨this.1, this.2.1, this.2.2⟩

theorem RegInv_step {σ : Type} (s : CompactedSlice) (op : Op σ) (h : RegInv s) :
    RegInv (step s op) := by
  cases op with
  | add data => exact RegInv_Add s data h
  | range handler st => exact ⟨h.1, h.2.1, h.2.2⟩

theorem RegInv_run {σ : Type} (ops : List (Op σ)) : ∀ s : CompactedSlice,
    RegInv s → RegInv (run s ops) := by
  induction ops with
  | nil => intro s h; exact h
  | cons op rest ih =>
    intro s h
    exact ih (step s op) (RegInv_step s op h)

/-- C10: after every sequence of `Add` and `Range` calls on a container built
by `NewCompactedSlice`, the name-to-field map and the ordered field list hold
the same fields, no name occurs twice, every index is unique, and the field
at position `i` of the list has `Index = i`. -/
theorem registry_invariant {σ : Type} (b : Bool) (ops : List (Op σ)) :
    (∀ (name : String) (f : field), mapGet (run (NewCompactedSlice b) ops).fieldNames name = some f ↔
        (f ∈ (run (NewCompactedSlice b) ops).fields ∧ f.Name = name)) ∧
    (mapKeys (run (NewCompactedSlice b) ops).fieldNames).Nodup ∧
    ((run (NewCompactedSlice b) ops).fields.map field.Name).Nodup ∧
    ((run (NewCompactedSlice b) ops).fields.map field.Index).Nodup ∧
    (∀ (i : Nat) (f : field), (run (NewCompactedSlice b) ops).fields[i]? = some f → f.Index = i) := by
  obtain ⟨hmap, hidx, hnd⟩ := RegInv_run ops (NewCompactedSlice b) (RegInv_new b)
  refine ⟨?_, ?_, hnd, ?_, hidx⟩
  · intro name f
    rw [hmap]
    constructor
    · exact mapGet_fields _ _ _
    · rintro ⟨hf, rfl⟩
      exact mapGet_fields_of_mem _ _ hnd hf
  · rw [hmap, mapKeys_fields]; exact hnd
  · rw [List.nodup_iff_getElem?_ne_getElem?]
    intro i j hij hj
    simp only [List.length_map] at hj
    simp only [List.getElem?_map]
    have hi : i < (run (NewCompactedSlice b) ops).fields.length := by omega
    rw [List.getElem?_eq_getElem hi, List.getElem?_eq_getElem hj]
    simp only [Option.map_some', ne_eq, Option.some.injEq]
    rw [hidx i _ (List.getElem?_eq_getElem hi), hidx j _ (List.getElem?_eq_getElem hj)]
    omega

/-! ### Dense-mode drain after growth, empty mappings, the counter -/

theorem compressLoop_nils (n : Nat) : ∀ k : Nat,
    compressLoop (List.replicate n Value.nil) [] k = [] := by
  induction n with
  | zero => intro k; simp [compressLoop]
  | succ n ih => intro k; simp [List.replicate_succ, compressLoop, ih]

/-- C3 (failing input): with dense storage, `Add({x:1}); Add({y:2}); Range`
reads `record[1]` of the one-slot first record and panics, while the same
calls with compacted storage deliver `[{x:1}, {y:2}]` in order. -/
theorem dense_range_panics_after_registry_growth :
    (Range (addAll (NewCompactedSlice false)
        [[("x", Value.int 1)], [("y", Value.int 2)]]) collect []).2.1 = Run.panicked ∧
    (Range (addAll (NewCompactedSlice true)
        [[("x", Value.int 1)], [("y", Value.int 2)]]) collect []).2
      = (Run.ok none, [[("x", Value.int 1)], [("y", Value.int 2)]]) := by
  constructor <;> decide

/-- C9 (counterexample): `Add` of an empty mapping on a fresh container
buffers a record, and the following `Range` invokes the handler for it. -/
theorem add_empty_is_not_a_noop :
    (Add (NewCompactedSlice true) []).data ≠ (NewCompactedSlice true).data ∧
    (Range (Add (NewCompactedSlice true) []) collect []).2.2 = [[]] ∧
    (Range (NewCompactedSlice true) collect []).2.2 = [] := by
  decide

/-- C9 (amended): `Add` of an empty mapping leaves the registry and the
counter unchanged and appends exactly one record without any present value:
the empty record in compacted mode, an all-absent record of the registry's
length in dense mode. -/
theorem add_empty_appends_blank_record (s : CompactedSlice) :
    (Add s []).fieldNames = s.fieldNames ∧
    (Add s []).fields = s.fields ∧
    (Add s []).size = s.size ∧
    Size (Add s []) = Size s ∧
    (Add s []).optimizedStorage = s.optimizedStorage ∧
    (Add s []).data = s.data ++
      [if s.optimizedStorage then [] else List.replicate s.fieldNames.length Value.nil] := by
  refine ⟨rfl, rfl, rfl, rfl, rfl, ?_⟩
  simp only [Add, addLoop, List.length_nil, Nat.not_lt_zero, if_false, compressStorage,
    compressLoop_nils]

/-- C8 (counterexample): after `Add({a:1}); Add({b:2})` two entries were set
but `Size()` is 1. -/
theorem size_is_not_the_entry_sum :
    Size (addAll (NewCompactedSlice true) [[("a", Value.int 1)], [("b", Value.int 2)]])
      ≠ Int.ofNat (entryCount [[("a", Value.int 1)], [("b", Value.int 2)]]) := by
  decide


theorem index_registry (s : CompactedSlice) (k : String) :
    (k ∈ mapKeys s.fieldNames →
      (index s k).1.fieldNames = s.fieldNames ∧ (index s k).1.size = s.size) ∧
    (k ∉ mapKeys s.fieldNames →
      mapKeys (index s k).1.fieldNames = mapKeys s.fieldNames ++ [k] ∧ (index s k).1.size = 0) := by
  unfold index
  cases hg : mapGet s.fieldNames k with
  | some f =>
    have hk : k ∈ mapKeys s.fieldNames := by
      by_contra hn
      rw [(mapGet_eq_none_iff _ _).mpr hn] at hg
      exact Option.noConfusion hg
    exact ⟨fun _ => ⟨rfl, rfl⟩, fun hn => absurd hk hn⟩
  | none =>
    have hk : k ∉ mapKeys s.fieldNames := (mapGet_eq_none_iff _ _).mp hg
    refine ⟨fun h => absurd h hk, fun _ => ⟨?_, rfl⟩⟩
    simp only [mapSet_of_not_mem _ _ _ hk]
    simp [mapKeys]

theorem append_singleton_split {α : Type} (ks pre post : List α) (k k1 : α)
    (h : ks ++ [k] = pre ++ k1 :: post) :
    (post = [] ∧ ks = pre ∧ k = k1) ∨ (∃ post1, post = post1 ++ [k] ∧ ks = pre ++ k1 :: post1) := by
  rcases List.eq_nil_or_concat post with hp | ⟨post1, x, hp⟩
  · subst hp
    have := List.append_inj' h (by simp)
    exact Or.inl ⟨rfl, this.1, by simpa using this.2⟩
  · rw [List.concat_eq_append] at hp
    subst hp
    have h2 : ks ++ [k] = (pre ++ k1 :: post1) ++ [x] := by simpa using h
    have := List.append_inj' h2 (by simp)
    have hx : k = x := by simpa using this.2
    subst hx
    exact Or.inr ⟨post1, rfl, this.1⟩

theorem SizeInv_touch (s : CompactedSlice) (ks : List String) (k : String) (h : SizeInv s ks) :
    SizeInv { (index s k).1 with size := ((index s k).1.size + 1) % 2 ^ 64 } (ks ++ [k]) := by
  obtain ⟨hmem, hnil, hsz⟩ := h
  have hreg := index_registry s k
  by_cases hk : k ∈ mapKeys s.fieldNames
  · obtain ⟨hf, hs⟩ := hreg.1 hk
    have hkk : k ∈ ks := (hmem k).mp hk
    refine ⟨?_, ?_, ?_⟩
    · intro x
      simp only [hf, List.mem_append, List.mem_singleton]
      constructor
      · intro hx; exact Or.inl ((hmem x).mp hx)
      · rintro (hx | hx)
        · exact (hmem x).mpr hx
        · subst hx; exact hk
    · intro he; simp at he
    · intro pre post k1 hdec hnew hold
      rcases append_singleton_split ks pre post k k1 hdec with ⟨hp, hks, hkeq⟩ | ⟨post1, hp, hks⟩
      · subst hks; subst hkeq; exact absurd hkk hnew
      · subst hp
        have hold1 : ∀ x ∈ post1, x ∈ pre ∨ x = k1 := fun x hx =>
          hold x (List.mem_append_left _ hx)
        have := hsz pre post1 k1 hks hnew hold1
        simp only [hs, this, List.length_append, List.length_singleton]
        omega
  · obtain ⟨hf, hs⟩ := hreg.2 hk
    have hkk : k ∉ ks := fun hx => hk ((hmem k).mpr hx)
    refine ⟨?_, ?_, ?_⟩
    · intro x
      simp only [hf, List.mem_append, List.mem_singleton]
      constructor
      · rintro (hx | hx)
        · exact Or.inl ((hmem x).mp hx)
        · exact Or.inr hx
      · rintro (hx | hx)
        · exact Or.inl ((hmem x).mpr hx)
        · exact Or.inr hx
    · intro he; simp at he
    · intro pre post k1 hdec hnew hold
      rcases append_singleton_split ks pre post k k1 hdec with ⟨hp, hks, hkeq⟩ | ⟨post1, hp, hks⟩
      · subst hp
        simp [hs]
      · subst hp
        exfalso
        apply hkk
        rw [hks]
        rcases hold k (by simp) with hx | hx
        · exact List.mem_append_left _ hx
        · subst hx; simp

theorem SizeInv_addLoop (data : GoMap Value) : ∀ (s : CompactedSlice) (record : List Value)
    (ks : List String), SizeInv s ks → SizeInv (addLoop s record data).1 (ks ++ mapKeys data) := by
  induction data with
  | nil => intro s record ks h; simpa [addLoop, mapKeys] using h
  | cons e rest ih =>
    intro s record ks h
    obtain ⟨k, v⟩ := e
    simp only [addLoop]
    have h1 := SizeInv_touch s ks k h
    have h2 := ih _ (List.set (if ¬ (index s k).2 < record.length
      then expandIfNeeded ((index s k).2 + 1) record else record) (index s k).2 v) _ h1
    simpa [mapKeys] using h2

theorem SizeInv_Add (s : CompactedSlice) (data : GoMap Value) (ks : List String)
    (h : SizeInv s ks) : SizeInv (Add s data) (ks ++ mapKeys data) := by
  have := SizeInv_addLoop data s
    (List.replicate (if s.fieldNames.length < data.length then data.length else s.fieldNames.length)
      Value.nil) ks h
  exact ⟨this.1, this.2.1, this.2.2⟩

theorem SizeInv_addAll (ms : List (GoMap Value)) : ∀ (s : CompactedSlice) (ks : List String),
    SizeInv s ks → SizeInv (addAll s ms) (ks ++ keySequence ms) := by
  induction ms with
  | nil => intro s ks h; simpa [addAll, keySequence] using h
  | cons m rest ih =>
    intro s ks h
    have := ih (Add s m) _ (SizeInv_Add s m ks h)
    simpa [addAll, keySequence] using this

theorem toInt64_small (n : Nat) (h : n < 2 ^ 63) : toInt64 n = (n : Int) := by
  unfold toInt64
  have h1 : n % 2 ^ 64 = n := Nat.mod_eq_of_lt (by omega)
  rw [h1, if_pos h]
  rfl

/-- C8 (amended): after a sequence of `Add` calls on a fresh container,
`Size()` is the number of entries set from the most recent entry that
registered a new field name on, that entry included (`index` resets the
counter whenever it registers a name), and 0 when no entry was ever set. -/
theorem size_counts_from_last_new_field (b : Bool) (ms : List (GoMap Value)) :
    (keySequence ms = [] → Size (addAll (NewCompactedSlice b) ms) = 0) ∧
    (∀ (pre post : List String) (k : String), keySequence ms = pre ++ k :: post → k ∉ pre →
      (∀ x ∈ post, x ∈ pre ∨ x = k) →
      Size (addAll (NewCompactedSlice b) ms) = toInt64 (post.length + 1) ∧
      (post.length + 1 < 2 ^ 63 →
        Size (addAll (NewCompactedSlice b) ms) = (post.length : Int) + 1)) := by
  have h0 : SizeInv (NewCompactedSlice b) [] := by
    refine ⟨?_, fun _ => rfl, ?_⟩
    · intro x; simp [NewCompactedSlice, mapKeys]
    · intro pre post k h; simp at h
  have h := SizeInv_addAll ms (NewCompactedSlice b) [] h0
  simp only [List.nil_append] at h
  obtain ⟨-, hnil, hsz⟩ := h
  constructor
  · intro he
    simp [Size, hnil he, toInt64]
  · intro pre post k hdec hnew hold
    have hs := hsz pre post k hdec hnew hold
    have h1 : Size (addAll (NewCompactedSlice b) ms) = toInt64 (post.length + 1) := by
      simp only [Size, hs, toInt64, Nat.mod_mod]
    refine ⟨h1, fun hlt => ?_⟩
    rw [h1, toInt64_small _ hlt]
    push_cast
    rfl

theorem size_counts_from_last_new_field_witness :
    Size (addAll (NewCompactedSlice true)
      [[("a", Value.int 1), ("b", Value.int 2)], [("c", Value.int 3), ("a", Value.int 4)]])
      = toInt64 (1 + 1) ∧
    (1 + 1 < 2 ^ 63 →
      Size (addAll (NewCompactedSlice true)
        [[("a", Value.int 1), ("b", Value.int 2)], [("c", Value.int 3), ("a", Value.int 4)]])
        = ((1 : Nat) : Int) + 1) :=
  (size_counts_from_last_new_field true
    [[("a", Value.int 1), ("b", Value.int 2)], [("c", Value.int 3), ("a", Value.int 4)]]).2
    ["a", "b"] ["a"] "c" (by decide) (by decide) (by decide)

/-! ### Stop and error propagation in `Range` -/

theorem rangeLoop_stop {σ : Type} (opt : Bool) (fields : List field) (h : Handler σ)
    (data : List (List Value)) : ∀ (record : List Value) (st : σ) (tr : List Call),
    (∀ c ∈ tr, c.next = true ∧ c.err = none) →
    ∀ (i : Nat) (c : Call),
      (rangeLoop opt fields (traced h) data record (st, tr)).2.2[i]? = some c →
      (c.next = false ∨ c.err ≠ none) →
      i + 1 = (rangeLoop opt fields (traced h) data record (st, tr)).2.2.length ∧
      (rangeLoop opt fields (traced h) data record (st, tr)).1 = Run.ok c.err := by
  induction data with
  | nil =>
    intro record st tr htr i c hi hstop
    simp only [rangeLoop] at hi
    have hc := htr c (List.getElem?_mem hi)
    rcases hstop with h1 | h1
    · rw [hc.1] at h1; exact Bool.noConfusion h1
    · exact absurd hc.2 h1
  | cons item rest ih =>
    intro record st tr htr i c
    have hold : ∀ (i : Nat) (c : Call), tr[i]? = some c → (c.next = false ∨ c.err ≠ none) → False := by
      intro i c hi hstop
      have hc := htr c (List.getElem?_mem hi)
      rcases hstop with h1 | h1
      · rw [hc.1] at h1; exact Bool.noConfusion h1
      · exact absurd hc.2 h1
    simp only [rangeLoop]
    cases hv : (if opt = true then uncompressStorage item record else Run.ok item) with
    | panicked =>
      intro hi hstop
      exact (hold i c hi hstop).elim
    | ok record1 =>
      simp only
      cases hb : buildMap fields record1 [] with
      | panicked =>
        intro hi hstop
        exact (hold i c hi hstop).elim
      | ok aMap =>
        simp only [traced]
        by_cases hs : (!(h st aMap).1.1 || decide ((h st aMap).1.2 ≠ none)) = true
        · rw [if_pos hs]
          intro hi hstop
          simp only at hi
          by_cases hlt : i < tr.length
          · rw [List.getElem?_append_left hlt] at hi
            exact (hold i c hi hstop).elim
          · rw [List.getElem?_append_right (by omega)] at hi
            have h0 : i - tr.length = 0 := by
              by_contra hne
              have hnone : ([({ arg := aMap, next := (h st aMap).1.1, err := (h st aMap).1.2 } : Call)])[i - tr.length]? = none := by
                apply List.getElem?_eq_none; simp; omega
              rw [hnone] at hi; exact Option.noConfusion hi
            rw [h0] at hi
            simp only [List.getElem?_cons_zero, Option.some.injEq] at hi
            subst hi
            simp only [List.length_append, List.length_singleton, and_true]
            omega
        · rw [if_neg hs]
          have hcont : (h st aMap).1.1 = true ∧ (h st aMap).1.2 = none := by
            simp only [Bool.or_eq_true, Bool.not_eq_true', decide_eq_true_eq, not_or,
              Bool.not_eq_false, ne_eq, not_not] at hs
            exact hs
          apply ih
          intro c1 hc1
          rcases List.mem_append.mp hc1 with h1 | h1
          · exact htr c1 h1
          · simp only [List.mem_singleton] at h1
            subst h1
            exact hcont

/-- C6: whenever an invocation of the handler returns `next = false` or a
non-nil error, it is the last invocation `Range` makes, and `Range` returns
(without panicking) exactly the error of that invocation, nil for a plain stop. -/
theorem range_stops_and_propagates {σ : Type} (s : CompactedSlice) (h : Handler σ) (st : σ)
    (i : Nat) (c : Call)
    (hcall : (Range s (traced h) (st, [])).2.2.2[i]? = some c)
    (hstop : c.next = false ∨ c.err ≠ none) :
    i + 1 = (Range s (traced h) (st, [])).2.2.2.length ∧
    (Range s (traced h) (st, [])).2.1 = Run.ok c.err :=
  rangeLoop_stop s.optimizedStorage s.fields h s.data
    (List.replicate s.fields.length Value.nil) st [] (by simp) i c hcall hstop

theorem range_stops_and_propagates_witness :
    (Range (addAll (NewCompactedSlice true)
        [[("x", Value.int 1)], [("x", Value.int 2)], [("x", Value.int 3)]])
      (traced (fun (_ : Unit) _ => ((false, none), ()))) ((), [])).2.2.2[0]?
      = some { arg := [("x", Value.int 1)], next := false, err := none } ∧
    0 + 1 = (Range (addAll (NewCompactedSlice true)
        [[("x", Value.int 1)], [("x", Value.int 2)], [("x", Value.int 3)]])
      (traced (fun (_ : Unit) _ => ((false, none), ()))) ((), [])).2.2.2.length ∧
    (Range (addAll (NewCompactedSlice true)
        [[("x", Value.int 1)], [("x", Value.int 2)], [("x", Value.int 3)]])
      (traced (fun (_ : Unit) _ => ((false, none), ()))) ((), [])).2.1 = Run.ok none :=
  ⟨by decide,
   range_stops_and_propagates _ _ () 0
     { arg := [("x", Value.int 1)], next := false, err := none } (by decide) (by decide)⟩


/-! ### Detach-and-clear -/

theorem rangeLoop_calls {σ : Type} (opt : Bool) (fields : List field) (h : Handler σ)
    (data : List (List Value)) : ∀ (record : List Value) (st : σ) (tr : List Call),
    ∃ calls : List Call,
      (rangeLoop opt fields (traced h) data record (st, tr)).2.2 = tr ++ calls ∧
      calls.length ≤ data.length ∧
      ∀ (i : Nat) (c : Call), calls[i]? = some c →
        ∃ (item buf rec : List Value), data[i]? = some item ∧
          (if opt = true then uncompressStorage item buf else Run.ok item) = Run.ok rec ∧
          buildMap fields rec [] = Run.ok c.arg := by
  induction data with
  | nil =>
    intro record st tr
    exact ⟨[], by simp [rangeLoop], by simp, by simp⟩
  | cons item rest ih =>
    intro record st tr
    simp only [rangeLoop]
    cases hv : (if opt = true then uncompressStorage item record else Run.ok item) with
    | panicked => exact ⟨[], by simp, by simp, by simp⟩
    | ok record1 =>
      simp only
      cases hb : buildMap fields record1 [] with
      | panicked => exact ⟨[], by simp, by simp, by simp⟩
      | ok aMap =>
        simp only [traced]
        have hhead : ∀ (calls : List Call) (i : Nat) (c : Call),
            (({ arg := aMap, next := (h st aMap).1.1, err := (h st aMap).1.2 } : Call) :: calls)[i]?
              = some c → i = 0 →
            ∃ (item1 buf rec : List Value), (item :: rest)[i]? = some item1 ∧
              (if opt = true then uncompressStorage item1 buf else Run.ok item1) = Run.ok rec ∧
              buildMap fields rec [] = Run.ok c.arg := by
          intro calls i c hi h0
          subst h0
          simp only [List.getElem?_cons_zero, Option.some.injEq] at hi
          subst hi
          exact ⟨item, record, record1, by simp, hv, hb⟩
        by_cases hs : (!(h st aMap).1.1 || decide ((h st aMap).1.2 ≠ none)) = true
        · rw [if_pos hs]
          refine ⟨[{ arg := aMap, next := (h st aMap).1.1, err := (h st aMap).1.2 }],
            rfl, by simp, ?_⟩
          intro i c hi
          by_cases h0 : i = 0
          · exact hhead [] i c hi h0
          · have hnone : ([({ arg := aMap, next := (h st aMap).1.1, err := (h st aMap).1.2 } : Call)])[i]? = none := by
              apply List.getElem?_eq_none; simp; omega
            rw [hnone] at hi; exact Option.noConfusion hi
        · rw [if_neg hs]
          obtain ⟨calls, htr, hlen, hcalls⟩ := ih record1 (h st aMap).2
            (tr ++ [{ arg := aMap, next := (h st aMap).1.1, err := (h st aMap).1.2 }])
          refine ⟨{ arg := aMap, next := (h st aMap).1.1, err := (h st aMap).1.2 } :: calls,
            by rw [htr]; simp, by simp; omega, ?_⟩
          intro i c hi
          cases i with
          | zero => exact hhead calls 0 c hi rfl
          | succ j =>
            simp only [List.getElem?_cons_succ] at hi ⊢
            exact hcalls j c hi

theorem Add_data_eq (s : CompactedSlice) (m : GoMap Value) :
    (Add s m).data = s.data ++
      [if s.optimizedStorage = true
        then compressStorage (addLoop s (List.replicate
          (if s.fieldNames.length < m.length then m.length else s.fieldNames.length)
          Value.nil) m).2
        else (addLoop s (List.replicate
          (if s.fieldNames.length < m.length then m.length else s.fieldNames.length)
          Value.nil) m).2] := by
  have hd := addLoop_frame m s (List.replicate
    (if s.fieldNames.length < m.length then m.length else s.fieldNames.length) Value.nil)
  rw [← hd.1, ← hd.2]
  rfl

theorem Add_data (s : CompactedSlice) (m : GoMap Value) :
    ∃ r : List Value, (Add s m).data = s.data ++ [r] :=
  ⟨_, Add_data_eq s m⟩

theorem addAll_data (ms : List (GoMap Value)) : ∀ s : CompactedSlice,
    ∃ recs : List (List Value), recs.length = ms.length ∧ (addAll s ms).data = s.data ++ recs := by
  induction ms with
  | nil => intro s; exact ⟨[], rfl, by simp [addAll]⟩
  | cons m rest ih =>
    intro s
    obtain ⟨r, hr⟩ := Add_data s m
    obtain ⟨recs, hlen, hrecs⟩ := ih (Add s m)
    refine ⟨r :: recs, by simp [hlen], ?_⟩
    show (addAll (Add s m) rest).data = _
    rw [hrecs, hr]
    simp

theorem addAll_append (s : CompactedSlice) (a b : List (GoMap Value)) :
    addAll s (a ++ b) = addAll (addAll s a) b := by
  simp [addAll, List.foldl_append]

/-! ### The record built by `Add` -/

theorem slot_replicate (n j : Nat) : slot (List.replicate n Value.nil) j = Value.nil := by
  unfold slot
  rw [List.getElem?_replicate]
  split <;> rfl

theorem slot_append_nils (d : List Value) (n j : Nat) :
    slot (d ++ List.replicate n Value.nil) j = slot d j := by
  unfold slot
  by_cases h : j < d.length
  · rw [List.getElem?_append_left h]
  · rw [List.getElem?_append_right (by omega), List.getElem?_replicate,
      List.getElem?_eq_none (by omega)]
    split <;> rfl

/-- One iteration of the loop of `Add` on the record: widening and the write. -/
theorem record_step (record : List Value) (i : Nat) (v : Value) :
    (∀ j, slot ((if ¬ i < record.length then expandIfNeeded (i + 1) record else record).set i v) j
        = if j = i then v else slot record j) ∧
    ((if ¬ i < record.length then expandIfNeeded (i + 1) record else record).set i v).length
        = max record.length (i + 1) ∧
    (∀ x ∈ (if ¬ i < record.length then expandIfNeeded (i + 1) record else record).set i v,
        x ∈ record ∨ x = Value.nil ∨ x = v) := by
  have hexp : (if ¬ i < record.length then expandIfNeeded (i + 1) record else record)
      = record ++ List.replicate (i + 1 - record.length) Value.nil := by
    by_cases h : i < record.length
    · have : i + 1 - record.length = 0 := by omega
      simp [h, this]
    · have h2 : i + 1 ≥ record.length := by omega
      simp only [h, not_false_eq_true, if_true, expandIfNeeded, h2]
  rw [hexp]
  have hlen : (record ++ List.replicate (i + 1 - record.length) Value.nil).length
      = max record.length (i + 1) := by
    simp only [List.length_append, List.length_replicate]; omega
  refine ⟨?_, by rw [List.length_set, hlen], ?_⟩
  · intro j
    unfold slot
    by_cases hj : j = i
    · subst hj
      rw [if_pos rfl, List.getElem?_set_self (by rw [hlen]; omega)]
      rfl
    · rw [if_neg hj, List.getElem?_set_ne (Ne.symm hj)]
      exact slot_append_nils record _ j
  · intro x hx
    rcases List.mem_or_eq_of_mem_set hx with h | h
    · rcases List.mem_append.mp h with h1 | h1
      · exact Or.inl h1
      · exact Or.inr (Or.inl (List.eq_of_mem_replicate h1))
    · exact Or.inr (Or.inr h)

theorem index_spec (s : CompactedSlice) (k : String) (h : RegInv s) :
    (∃ ext : List field, (index s k).1.fields = s.fields ++ ext ∧ ext.length ≤ 1) ∧
    (index s k).1.fields[(index s k).2]? = some { Name := k, Index := (index s k).2 } := by
  obtain ⟨hmap, hidx, hnd⟩ := h
  unfold index
  cases hg : mapGet s.fieldNames k with
  | some f =>
    rw [hmap] at hg
    obtain ⟨hf, hname⟩ := mapGet_fields _ _ _ hg
    obtain ⟨n, hn⟩ := List.getElem?_of_mem hf
    have hi := hidx n f hn
    refine ⟨⟨[], by simp, by simp⟩, ?_⟩
    simp only
    rw [hi, hn]
    cases f
    simp_all
  | none =>
    have hlen : s.fieldNames.length = s.fields.length := by rw [hmap]; simp
    refine ⟨⟨[_], rfl, by simp⟩, ?_⟩
    simp only
    rw [hlen, List.getElem?_append_right (Nat.le_refl _)]
    simp

theorem fields_name_inj (s : CompactedSlice) (h : RegInv s) (i j : Nat) (f g : field)
    (hf : s.fields[i]? = some f) (hg : s.fields[j]? = some g) (hname : f.Name = g.Name) :
    i = j := by
  obtain ⟨-, -, hnd⟩ := h
  rw [List.nodup_iff_getElem?_ne_getElem?] at hnd
  have hi : i < s.fields.length := (List.getElem?_eq_some.mp hf).1
  have hj : j < s.fields.length := (List.getElem?_eq_some.mp hg).1
  by_contra hne
  rcases Nat.lt_or_gt_of_ne hne with hlt | hlt
  · apply hnd i j hlt (by simpa using hj)
    simp [List.getElem?_map, hf, hg, hname]
  · apply hnd j i hlt (by simpa using hi)
    simp [List.getElem?_map, hf, hg, hname]

theorem addLoop_fields_ext (data : GoMap Value) : ∀ (s : CompactedSlice) (record : List Value),
    RegInv s → ∃ ext : List field, (addLoop s record data).1.fields = s.fields ++ ext := by
  induction data with
  | nil => intro s record _; exact ⟨[], by simp [addLoop]⟩
  | cons e rest ih =>
    intro s record h
    obtain ⟨k, v⟩ := e
    simp only [addLoop]
    have h1 := RegInv_index s k h
    obtain ⟨⟨ext1, he1, -⟩, -⟩ := index_spec s k h
    obtain ⟨ext2, he2⟩ := ih { (index s k).1 with size := ((index s k).1.size + 1) % 2 ^ 64 }
      ((if ¬ (index s k).2 < record.length
        then expandIfNeeded ((index s k).2 + 1) record else record).set (index s k).2 v)
      ⟨h1.1, h1.2.1, h1.2.2⟩
    refine ⟨ext1 ++ ext2, ?_⟩
    rw [he2]
    show (index s k).1.fields ++ ext2 = _
    rw [he1, List.append_assoc]

theorem addLoop_cons (s : CompactedSlice) (record : List Value) (k : String) (v : Value)
    (rest : GoMap Value) :
    addLoop s record ((k, v) :: rest) = addLoop (touch s k) (writeSlot record (index s k).2 v) rest :=
  rfl

theorem RegInv_touch (s : CompactedSlice) (k : String) (h : RegInv s) : RegInv (touch s k) :=
  ⟨(RegInv_index s k h).1, (RegInv_index s k h).2.1, (RegInv_index s k h).2.2⟩

theorem writeSlot_spec (record : List Value) (i : Nat) (v : Value) :
    (∀ j, slot (writeSlot record i v) j = if j = i then v else slot record j) ∧
    (writeSlot record i v).length = max record.length (i + 1) ∧
    (∀ x ∈ writeSlot record i v, x ∈ record ∨ x = Value.nil ∨ x = v) :=
  record_step record i v

theorem index_length (s : CompactedSlice) (k : String) (h : RegInv s) :
    (index s k).1.fields.length ≤ max s.fields.length ((index s k).2 + 1) := by
  have hlen : s.fieldNames.length = s.fields.length := by rw [h.1]; simp
  unfold index
  cases hg : mapGet s.fieldNames k with
  | some f => simp
  | none => simp [hlen]

theorem touch_fields (s : CompactedSlice) (k : String) :
    (touch s k).fields = (index s k).1.fields := rfl

theorem addLoop_keys_registered (data : GoMap Value) :
    ∀ (s : CompactedSlice) (record : List Value), RegInv s →
    ∀ k ∈ mapKeys data, ∃ (i : Nat),
      (addLoop s record data).1.fields[i]? = some { Name := k, Index := i } := by
  induction data with
  | nil => intro s record _ k hk; simp [mapKeys] at hk
  | cons e rest ih =>
    intro s record h k hk
    obtain ⟨k1, v⟩ := e
    rw [addLoop_cons]
    have h2 : RegInv (touch s k1) := RegInv_touch s k1 h
    simp only [mapKeys, List.map_cons, List.mem_cons] at hk
    rcases hk with hk | hk
    · subst hk
      obtain ⟨-, hi⟩ := index_spec s k h
      obtain ⟨ext, hext⟩ := addLoop_fields_ext rest
        (touch s k)
        (writeSlot record (index s k).2 v) h2
      refine ⟨(index s k).2, ?_⟩
      rw [hext]
      have hlt : (index s k).2 < (index s k).1.fields.length := (List.getElem?_eq_some.mp hi).1
      rw [touch_fields]
      rw [List.getElem?_append_left hlt]
      exact hi
    · exact ih _ _ h2 k hk

theorem addLoop_lengths (data : GoMap Value) :
    ∀ (s : CompactedSlice) (record : List Value), RegInv s →
    record.length ≤ (addLoop s record data).2.length ∧
    (addLoop s record data).2.length ≤ max record.length (addLoop s record data).1.fields.length ∧
    (s.fields.length ≤ record.length →
      (addLoop s record data).1.fields.length ≤ (addLoop s record data).2.length) := by
  induction data with
  | nil => intro s record _; simp [addLoop]
  | cons e rest ih =>
    intro s record h
    obtain ⟨k, v⟩ := e
    rw [addLoop_cons]
    have h2 : RegInv (touch s k) := RegInv_touch s k h
    obtain ⟨⟨ext1, hext1, hlen1⟩, hi⟩ := index_spec s k h
    have hlt : (index s k).2 < (index s k).1.fields.length := (List.getElem?_eq_some.mp hi).1
    obtain ⟨-, hrl, -⟩ := writeSlot_spec record (index s k).2 v
    obtain ⟨ext, hext⟩ := addLoop_fields_ext rest
      (touch s k)
      (writeSlot record (index s k).2 v) h2
    obtain ⟨ha, hb, hc⟩ := ih (touch s k)
      (writeSlot record (index s k).2 v) h2
    have hfl := congrArg List.length hext
    have hfl1 := congrArg List.length hext1
    simp only [List.length_append] at hfl hfl1
    rw [touch_fields] at hfl hc
    rw [hrl] at ha hb hc
    have hil := index_length s k h
    refine ⟨by omega, by omega, ?_⟩
    intro hsr
    apply hc
    omega

theorem addLoop_mem (data : GoMap Value) :
    ∀ (s : CompactedSlice) (record : List Value),
    ∀ x ∈ (addLoop s record data).2, x ∈ record ∨ x = Value.nil ∨ ∃ e ∈ data, e.2 = x := by
  induction data with
  | nil => intro s record x hx; exact Or.inl (by simpa [addLoop] using hx)
  | cons e rest ih =>
    intro s record x hx
    obtain ⟨k, v⟩ := e
    rw [addLoop_cons] at hx
    obtain ⟨-, -, hmem⟩ := writeSlot_spec record (index s k).2 v
    rcases ih _ _ x hx with h | h | ⟨e, he, hex⟩
    · rcases hmem x h with h1 | h1 | h1
      · exact Or.inl h1
      · exact Or.inr (Or.inl h1)
      · exact Or.inr (Or.inr ⟨(k, v), List.mem_cons_self _ _, h1.symm⟩)
    · exact Or.inr (Or.inl h)
    · exact Or.inr (Or.inr ⟨e, List.mem_cons_of_mem _ he, hex⟩)

theorem addLoop_content (data : GoMap Value) :
    ∀ (s : CompactedSlice) (record : List Value), RegInv s → (mapKeys data).Nodup →
    ∀ j : Nat, slot (addLoop s record data).2 j =
      match (addLoop s record data).1.fields[j]? with
      | some f =>
        (match mapGet data f.Name with
         | some v => v
         | none => slot record j)
      | none => slot record j := by
  induction data with
  | nil =>
    intro s record _ _ j
    simp only [addLoop, mapGet]
    split <;> rfl
  | cons e rest ih =>
    intro s record h hnd j
    obtain ⟨k, v⟩ := e
    simp only [mapKeys, List.map_cons, List.nodup_cons] at hnd
    obtain ⟨hk, hnd⟩ := hnd
    have hkrest : mapGet rest k = none := (mapGet_eq_none_iff rest k).mpr hk
    rw [addLoop_cons]
    have h2 : RegInv (touch s k) := RegInv_touch s k h
    obtain ⟨-, hi⟩ := index_spec s k h
    have hlt : (index s k).2 < (index s k).1.fields.length := (List.getElem?_eq_some.mp hi).1
    obtain ⟨hslot, -, -⟩ := writeSlot_spec record (index s k).2 v
    obtain ⟨ext, hext⟩ := addLoop_fields_ext rest
      (touch s k)
      (writeSlot record (index s k).2 v) h2
    have hfinal := RegInv_addLoop rest
      (touch s k)
      (writeSlot record (index s k).2 v) h2
    have hik : (addLoop (touch s k)
        (writeSlot record (index s k).2 v)
        rest).1.fields[(index s k).2]? = some { Name := k, Index := (index s k).2 } := by
      rw [hext]
      rw [touch_fields]
      rw [List.getElem?_append_left hlt]
      exact hi
    rw [ih _ _ h2 hnd j]
    cases hf : (addLoop (touch s k)
        (writeSlot record (index s k).2 v)
        rest).1.fields[j]? with
    | none =>
      simp only
      have hji : j ≠ (index s k).2 := by
        intro he
        rw [he, hik] at hf
        exact Option.noConfusion hf
      rw [hslot j, if_neg hji]
    | some f =>
      simp only
      by_cases hname : f.Name = k
      · have hji : j = (index s k).2 :=
          fields_name_inj _ hfinal j (index s k).2 f _ hf hik hname
        rw [hname, hkrest]
        simp only [mapGet, if_true]
        rw [hslot j, if_pos hji]
      · have hji : j ≠ (index s k).2 := by
          intro he
          rw [he, hik] at hf
          simp only [Option.some.injEq] at hf
          apply hname
          rw [← hf]
        have hne : ¬ k = f.Name := fun he => hname he.symm
        simp only [mapGet, hne, if_false]
        rw [hslot j, if_neg hji]

/-! ### The mapping built by `Range` -/

theorem skipValue_eq (v : Value) : skipValue v = !significant v := by
  cases v with
  | nil => rfl
  | str s =>
    by_cases h : s = "" <;>
      simp [skipValue, IsString, AsString, significant, h]
  | int n =>
    by_cases h : n = 0 <;>
      simp [skipValue, IsString, IsInt, AsInt, significant, h]
  | float bits =>
    simp only [skipValue, IsString, IsInt, IsFloat, AsFloatIsZero, significant, Nat.reducePow,
      reduceCtorEq, if_false, if_true, Bool.false_eq_true]
    by_cases h : bits % 9223372036854775808 = 0 <;> simp [h]
  | other tag => simp [skipValue, IsString, IsInt, IsFloat, significant]
  | nilGroup n => simp [skipValue, IsString, IsInt, IsFloat, significant]

theorem buildMap_spec (record : List Value) : ∀ (fs : List field) (acc : GoMap Value),
    (∀ f ∈ fs, f.Index < record.length) → (fs.map field.Name).Nodup →
    ∃ aMap : GoMap Value, buildMap fs record acc = Run.ok aMap ∧
      ∀ k : String, mapGet aMap k =
        match fs.find? (fun f => decide (f.Name = k)) with
        | some f => if skipValue (slot record f.Index) then mapGet acc k
                    else some (slot record f.Index)
        | none => mapGet acc k := by
  intro fs
  induction fs with
  | nil => intro acc _ _; exact ⟨acc, rfl, fun k => rfl⟩
  | cons f rest ih =>
    intro acc hidx hnd
    simp only [List.map_cons, List.nodup_cons, List.mem_map, not_exists, not_and] at hnd
    obtain ⟨hf, hnd⟩ := hnd
    have hlt : f.Index < record.length := hidx f (List.mem_cons_self _ _)
    have hval : record[f.Index]? = some (slot record f.Index) := by
      simp [slot, List.getElem?_eq_getElem hlt]
    have hrest : ∀ g ∈ rest, g.Index < record.length := fun g hg =>
      hidx g (List.mem_cons_of_mem _ hg)
    have hnone : rest.find? (fun g => decide (g.Name = f.Name)) = none := by
      rw [List.find?_eq_none]
      intro g hg
      simp only [decide_eq_true_eq]
      exact hf g hg
    simp only [buildMap, hval]
    by_cases hs : skipValue (slot record f.Index) = true
    · rw [if_pos hs]
      obtain ⟨aMap, hb, hget⟩ := ih acc hrest hnd
      refine ⟨aMap, hb, ?_⟩
      intro k
      rw [hget k]
      by_cases hk : f.Name = k
      · subst hk
        rw [hnone, List.find?_cons_of_pos _ (by simp)]
        simp [hs]
      · rw [List.find?_cons_of_neg _ (by simpa using hk)]
    · rw [if_neg hs]
      obtain ⟨aMap, hb, hget⟩ := ih (mapSet acc f.Name (slot record f.Index)) hrest hnd
      refine ⟨aMap, hb, ?_⟩
      intro k
      rw [hget k]
      by_cases hk : f.Name = k
      · subst hk
        rw [hnone, List.find?_cons_of_pos _ (by simp)]
        simp [hs, mapGet_mapSet]
      · rw [List.find?_cons_of_neg _ (by simpa using hk)]
        simp only [mapGet_mapSet, hk, if_false]

theorem Add_fields (s : CompactedSlice) (data : GoMap Value) :
    (Add s data).fields = (addLoop s (List.replicate
      (if s.fieldNames.length < data.length then data.length else s.fieldNames.length)
      Value.nil) data).1.fields := rfl

theorem Add_optimizedStorage (s : CompactedSlice) (data : GoMap Value) :
    (Add s data).optimizedStorage = s.optimizedStorage :=
  (addLoop_frame data s _).2

theorem Add_data_dense (s : CompactedSlice) (data : GoMap Value) :
    (Add s data).data = s.data ++
      [if s.optimizedStorage = true then compressStorage (denseRecord s data)
       else denseRecord s data] :=
  Add_data_eq s data

theorem Add_fields_ext (s : CompactedSlice) (data : GoMap Value) (h : RegInv s) :
    ∃ ext : List field, (Add s data).fields = s.fields ++ ext :=
  addLoop_fields_ext data s _ h

theorem denseRecord_slot (s : CompactedSlice) (data : GoMap Value) (h : RegInv s)
    (hnd : (mapKeys data).Nodup) (j : Nat) :
    slot (denseRecord s data) j =
      match (Add s data).fields[j]? with
      | some f => (mapGet data f.Name).getD Value.nil
      | none => Value.nil := by
  unfold denseRecord
  rw [addLoop_content data s _ h hnd j, Add_fields, slot_replicate]
  split
  · split <;> simp_all
  · rfl

theorem denseRecord_dense (s : CompactedSlice) (data : GoMap Value)
    (hv : ∀ e ∈ data, e.2.isMarker = false) : Dense (denseRecord s data) := by
  intro x hx
  rcases addLoop_mem data s _ x hx with h | h | ⟨e, he, hex⟩
  · rw [List.eq_of_mem_replicate h]; rfl
  · rw [h]; rfl
  · rw [← hex]; exact hv e he

theorem keys_registered (s : CompactedSlice) (data : GoMap Value) (h : RegInv s) :
    ∀ k ∈ mapKeys data, ∃ i : Nat, (Add s data).fields[i]? = some { Name := k, Index := i } :=
  addLoop_keys_registered data s _ h

theorem denseRecord_length (s : CompactedSlice) (data : GoMap Value) (h : RegInv s)
    (hnd : (mapKeys data).Nodup) :
    (denseRecord s data).length = (Add s data).fields.length := by
  have hlen : s.fieldNames.length = s.fields.length := by rw [h.1]; simp
  obtain ⟨ha, hb, hc⟩ := addLoop_lengths data s (List.replicate
    (if s.fieldNames.length < data.length then data.length else s.fieldNames.length)
    Value.nil) h
  obtain ⟨ext, hext⟩ := Add_fields_ext s data h
  have hext2 := congrArg List.length hext
  have hcount : data.length ≤ (Add s data).fields.length := by
    have hsub : mapKeys data ⊆ (Add s data).fields.map field.Name := by
      intro k hk
      obtain ⟨i, hi⟩ := keys_registered s data h k hk
      exact List.mem_map.mpr ⟨_, List.getElem?_mem hi, rfl⟩
    have := (List.subperm_of_subset hnd hsub).length_le
    simpa [mapKeys] using this
  rw [← Add_fields] at hb hc
  generalize hn0 : (if s.fieldNames.length < data.length then data.length
    else s.fieldNames.length) = n0 at ha hb hc
  have h0 : s.fields.length ≤ n0 ∧ (n0 = data.length ∨ n0 = s.fields.length) := by
    rw [← hn0]; split <;> omega
  simp only [List.length_replicate, List.length_append] at ha hb hc hext2
  have hc2 := hc h0.1
  unfold denseRecord
  rw [hn0]
  omega

theorem delivered_mapping (s sF : CompactedSlice) (mp : GoMap Value) (record : List Value)
    (h : RegInv s) (hF : RegInv sF) (hmp : (mapKeys mp).Nodup)
    (hext : ∃ ext : List field, sF.fields = (Add s mp).fields ++ ext)
    (hrec : ∀ j, slot record j = slot (denseRecord s mp) j)
    (hlen : sF.fields.length ≤ record.length) :
    ∃ aMap : GoMap Value, buildMap sF.fields record [] = Run.ok aMap ∧
      ∀ k : String, mapGet aMap k = (mapGet mp k).filter significant := by
  obtain ⟨ext, hext⟩ := hext
  have hidxF : ∀ f ∈ sF.fields, f.Index < record.length := by
    intro f hf
    obtain ⟨n, hn⟩ := List.getElem?_of_mem hf
    have := hF.2.1 n f hn
    have hlt : n < sF.fields.length := (List.getElem?_eq_some.mp hn).1
    omega
  obtain ⟨aMap, hb, hget⟩ := buildMap_spec record sF.fields [] hidxF hF.2.2
  refine ⟨aMap, hb, ?_⟩
  intro k
  rw [hget k]
  -- a key of `mp` is registered at a position inside the registry `Add` left
  have hreg : ∀ k1 ∈ mapKeys mp, ∃ i : Nat, i < (Add s mp).fields.length ∧
      sF.fields[i]? = some { Name := k1, Index := i } := by
    intro k1 hk1
    obtain ⟨i, hi⟩ := keys_registered s mp h k1 hk1
    have hlt : i < (Add s mp).fields.length := (List.getElem?_eq_some.mp hi).1
    exact ⟨i, hlt, by rw [hext, List.getElem?_append_left hlt]; exact hi⟩
  cases hfind : sF.fields.find? (fun f => decide (f.Name = k)) with
  | none =>
    simp only [mapGet]
    have hnk : mapGet mp k = none := by
      rw [mapGet_eq_none_iff]
      intro hk
      obtain ⟨i, -, hi⟩ := hreg k hk
      rw [List.find?_eq_none] at hfind
      exact hfind _ (List.getElem?_mem hi) (by simp)
    rw [hnk]
    rfl
  | some f =>
    have hname : f.Name = k := by simpa using List.find?_some hfind
    obtain ⟨n, hn⟩ := List.getElem?_of_mem (List.mem_of_find?_eq_some hfind)
    have hfi : f.Index = n := hF.2.1 n f hn
    have hslot : slot record f.Index = (mapGet mp k).getD Value.nil := by
      rw [hrec, denseRecord_slot s mp h hmp, hfi]
      by_cases hlt : n < (Add s mp).fields.length
      · have : (Add s mp).fields[n]? = some f := by
          rw [← hn, hext, List.getElem?_append_left hlt]
        rw [this]
        simp only [hname]
      · rw [List.getElem?_eq_none (by omega)]
        have hnk : mapGet mp k = none := by
          rw [mapGet_eq_none_iff]
          intro hk
          obtain ⟨i, hi1, hi2⟩ := hreg k hk
          have := fields_name_inj sF hF i n _ f hi2 hn (by simp [hname])
          omega
        rw [hnk]
        rfl
    simp only [hslot, mapGet]
    cases hv : mapGet mp k with
    | none => simp [skipValue]
    | some v =>
      simp only [Option.getD_some, Option.filter_some, skipValue_eq]
      cases significant v <;> simp

theorem rangeLoop_single {σ : Type} (opt : Bool) (fields : List field) (h : Handler σ)
    (item record record1 : List Value) (st : σ) (tr : List Call) (aMap : GoMap Value)
    (hview : (if opt = true then uncompressStorage item record else Run.ok item) = Run.ok record1)
    (hb : buildMap fields record1 [] = Run.ok aMap) :
    rangeLoop opt fields (traced h) [item] record (st, tr)
      = (Run.ok (h st aMap).1.2,
          ((h st aMap).2, tr ++ [{ arg := aMap, next := (h st aMap).1.1, err := (h st aMap).1.2 }])) := by
  simp only [rangeLoop, hview, hb, traced]
  split
  · rfl
  · rename_i hs
    simp only [Bool.or_eq_true, Bool.not_eq_true', decide_eq_true_eq, not_or,
      Bool.not_eq_false, ne_eq, not_not] at hs
    rw [hs.2]

/-- C5: a mapping added to a fresh container (either storage mode) and then
drained is delivered in one handler invocation, and the delivered mapping
holds a key exactly when the added mapping sets it to a present value that is
not the empty string, an integer zero or a floating-point zero, with that
same value; values of any other kind are kept. -/
theorem range_filters_zero_values {σ : Type} (b : Bool) (m : GoMap Value) (h : Handler σ)
    (st : σ) (hm : WellFormed m) :
    ∃ aMap : GoMap Value,
      (Range (Add (NewCompactedSlice b) m) (traced h) (st, [])).2.2.2
        = [{ arg := aMap, next := (h st aMap).1.1, err := (h st aMap).1.2 }] ∧
      (Range (Add (NewCompactedSlice b) m) (traced h) (st, [])).2.1 = Run.ok (h st aMap).1.2 ∧
      ∀ k : String, mapGet aMap k = (mapGet m k).filter significant := by
  have h0 := RegInv_new b
  have h1 := RegInv_Add (NewCompactedSlice b) m h0
  have hlen := denseRecord_length (NewCompactedSlice b) m h0 hm.1
  have hdense := denseRecord_dense (NewCompactedSlice b) m hm.2
  obtain ⟨aMap, hb, hget⟩ := delivered_mapping (NewCompactedSlice b) (Add (NewCompactedSlice b) m) m
    (denseRecord (NewCompactedSlice b) m) h0 h1 hm.1 ⟨[], by simp⟩ (fun _ => rfl) (by omega)
  have hopt : (Add (NewCompactedSlice b) m).optimizedStorage = b :=
    Add_optimizedStorage (NewCompactedSlice b) m
  have hdata : (Add (NewCompactedSlice b) m).data
      = [if b = true then compressStorage (denseRecord (NewCompactedSlice b) m)
         else denseRecord (NewCompactedSlice b) m] := by
    rw [Add_data_dense]; rfl
  have hview : (if b = true
      then uncompressStorage (if b = true then compressStorage (denseRecord (NewCompactedSlice b) m)
          else denseRecord (NewCompactedSlice b) m)
        (List.replicate (Add (NewCompactedSlice b) m).fields.length Value.nil)
      else Run.ok (if b = true then compressStorage (denseRecord (NewCompactedSlice b) m)
          else denseRecord (NewCompactedSlice b) m))
      = Run.ok (denseRecord (NewCompactedSlice b) m) := by
    cases b
    · simp only [Bool.false_eq_true, if_false]
    · simp only [if_true]
      rw [decode_encode _ _ hdense (by simp [hlen]), List.length_replicate, hlen, Nat.sub_self,
        List.replicate_zero, List.append_nil]
  have hloop := rangeLoop_single b (Add (NewCompactedSlice b) m).fields h _ _ _ st [] aMap hview hb
  have hrange : (Range (Add (NewCompactedSlice b) m) (traced h) (st, [])).2
      = (Run.ok (h st aMap).1.2,
          ((h st aMap).2, [{ arg := aMap, next := (h st aMap).1.1, err := (h st aMap).1.2 }])) := by
    simp only [Range]
    rw [hdata, hopt, hloop]
    rfl
  exact ⟨aMap, by rw [hrange], by rw [hrange], hget⟩

theorem range_filters_zero_values_witness :
    WellFormed [("a", Value.int 0), ("b", Value.str ""), ("c", Value.int 5)] ∧
    ∃ aMap : GoMap Value,
      (Range (Add (NewCompactedSlice true)
          [("a", Value.int 0), ("b", Value.str ""), ("c", Value.int 5)])
        (traced collect) ([], [])).2.2.2
        = [{ arg := aMap, next := (collect [] aMap).1.1, err := (collect [] aMap).1.2 }] ∧
      (Range (Add (NewCompactedSlice true)
          [("a", Value.int 0), ("b", Value.str ""), ("c", Value.int 5)])
        (traced collect) ([], [])).2.1 = Run.ok (collect [] aMap).1.2 ∧
      ∀ k : String, mapGet aMap k
        = (mapGet [("a", Value.int 0), ("b", Value.str ""), ("c", Value.int 5)] k).filter
            significant :=
  ⟨by decide, range_filters_zero_values true _ collect [] (by decide)⟩

/-! ### Compacted records across registry growth -/

theorem expand_compress_pad (d : List Value) (n : Nat) (hd : Dense d) (h : d.length ≤ n) :
    (expand (compressStorage d)).length ≤ d.length ∧
    expand (compressStorage d)
        ++ List.replicate (n - (expand (compressStorage d)).length) Value.nil
      = d ++ List.replicate (n - d.length) Value.nil := by
  obtain ⟨t, ht⟩ := expand_compressLoop d hd 0
  simp only [List.replicate_zero, List.nil_append] at ht
  have hlen : (expand (compressLoop d [] 0)).length + t = d.length := by
    have := congrArg List.length ht
    simpa using this
  unfold compressStorage
  refine ⟨by omega, ?_⟩
  have hsplit : n - (expand (compressLoop d [] 0)).length = t + (n - d.length) := by omega
  rw [hsplit, List.replicate_add, ← List.append_assoc, ht]

theorem StoreInv_new (b : Bool) : StoreInv (NewCompactedSlice b) :=
  ⟨RegInv_new b, by intro _ r hr; simp [NewCompactedSlice] at hr⟩

theorem StoreInv_Add (s : CompactedSlice) (m : GoMap Value) (h : StoreInv s)
    (hm : WellFormed m) : StoreInv (Add s m) := by
  obtain ⟨hreg, hfit⟩ := h
  refine ⟨RegInv_Add s m hreg, ?_⟩
  intro hopt r hr
  rw [Add_optimizedStorage] at hopt
  obtain ⟨ext, hext⟩ := Add_fields_ext s m hreg
  have hlen := congrArg List.length hext
  simp only [List.length_append] at hlen
  rw [Add_data_dense, hopt] at hr
  simp only [if_true, List.mem_append, List.mem_singleton] at hr
  rcases hr with hr | hr
  · have := hfit hopt r hr
    omega
  · subst hr
    have h1 := (expand_compress_pad (denseRecord s m) (denseRecord s m).length
      (denseRecord_dense s m hm.2) (Nat.le_refl _)).1
    have h2 := denseRecord_length s m hreg hm.1
    omega

theorem StoreInv_Range {σ : Type} (s : CompactedSlice) (h : Handler σ) (st : σ)
    (hs : StoreInv s) : StoreInv (Range s h st).1 :=
  ⟨⟨hs.1.1, hs.1.2.1, hs.1.2.2⟩, by intro _ r hr; simp [Range] at hr⟩

theorem StoreInv_run {σ : Type} (ops : List (Op σ)) : ∀ s : CompactedSlice,
    StoreInv s → WellFormedOps ops → StoreInv (run s ops) := by
  induction ops with
  | nil => intro s h _; exact h
  | cons op rest ih =>
    intro s h hwf
    cases op with
    | add data => exact ih (Add s data) (StoreInv_Add s data h hwf.1) hwf.2
    | range handler st => exact ih (Range s handler st).1 (StoreInv_Range s handler st h) hwf

theorem run_optimizedStorage {σ : Type} (ops : List (Op σ)) : ∀ s : CompactedSlice,
    (run s ops).optimizedStorage = s.optimizedStorage := by
  induction ops with
  | nil => intro s; rfl
  | cons op rest ih =>
    intro s
    cases op with
    | add data =>
      show (run (Add s data) rest).optimizedStorage = _
      rw [ih, Add_optimizedStorage]
    | range handler st =>
      show (run (Range s handler st).1 rest).optimizedStorage = _
      rw [ih]; rfl

theorem addAll_facts (ms : List (GoMap Value)) : ∀ s : CompactedSlice,
    StoreInv s → (∀ m ∈ ms, WellFormed m) →
    StoreInv (addAll s ms) ∧
    (addAll s ms).optimizedStorage = s.optimizedStorage ∧
    (∃ ext : List field, (addAll s ms).fields = s.fields ++ ext) ∧
    (∃ recs : List (List Value), (addAll s ms).data = s.data ++ recs) := by
  induction ms with
  | nil => intro s h _; exact ⟨h, rfl, ⟨[], by simp [addAll]⟩, ⟨[], by simp [addAll]⟩⟩
  | cons m rest ih =>
    intro s h hwf
    have hm := hwf m (List.mem_cons_self _ _)
    obtain ⟨h1, h2, ⟨ext, h3⟩, ⟨recs, h4⟩⟩ := ih (Add s m) (StoreInv_Add s m h hm)
      (fun x hx => hwf x (List.mem_cons_of_mem _ hx))
    obtain ⟨ext0, hext0⟩ := Add_fields_ext s m h.1
    obtain ⟨r, hr⟩ := Add_data s m
    refine ⟨h1, ?_, ⟨ext0 ++ ext, ?_⟩, ⟨r :: recs, ?_⟩⟩
    · show (addAll (Add s m) rest).optimizedStorage = _
      rw [h2, Add_optimizedStorage]
    · show (addAll (Add s m) rest).fields = _
      rw [h3, hext0, List.append_assoc]
    · show (addAll (Add s m) rest).data = _
      rw [h4, hr]; simp

theorem rangeLoop_optimized_all {σ : Type} (fields : List field) (h : Handler σ) (n : Nat)
    (hidx : ∀ f ∈ fields, f.Index < n) (hnd : (fields.map field.Name).Nodup)
    (hcont : ∀ (st : σ) (a : GoMap Value), (h st a).1 = (true, none))
    (data : List (List Value)) :
    (∀ item ∈ data, (expand item).length ≤ n) →
    ∀ (record : List Value) (st : σ) (tr : List Call), record.length = n →
    ∃ (calls : List Call) (st1 : σ),
      rangeLoop true fields (traced h) data record (st, tr) = (Run.ok none, (st1, tr ++ calls)) ∧
      calls.length = data.length ∧
      ∀ (i : Nat) (item : List Value), data[i]? = some item →
        ∃ c : Call, calls[i]? = some c ∧
          buildMap fields
            (expand item ++ List.replicate (n - (expand item).length) Value.nil) []
            = Run.ok c.arg := by
  induction data with
  | nil =>
    intro _ record st tr _
    exact ⟨[], st, by simp [rangeLoop], rfl, by simp⟩
  | cons item rest ih =>
    intro hfit record st tr hlen
    have hfi : (expand item).length ≤ n := hfit item (List.mem_cons_self _ _)
    have hview := uncompressStorage_eq item record (by omega)
    rw [hlen] at hview
    have hlen1 : (expand item ++ List.replicate (n - (expand item).length) Value.nil).length = n := by
      simp only [List.length_append, List.length_replicate]; omega
    obtain ⟨aMap, hb, -⟩ := buildMap_spec
      (expand item ++ List.replicate (n - (expand item).length) Value.nil) fields []
      (by intro f hf; rw [hlen1]; exact hidx f hf) hnd
    obtain ⟨calls, st1, hloop, hcl, hcalls⟩ := ih
      (fun x hx => hfit x (List.mem_cons_of_mem _ hx))
      (expand item ++ List.replicate (n - (expand item).length) Value.nil) (h st aMap).2
      (tr ++ [{ arg := aMap, next := (h st aMap).1.1, err := (h st aMap).1.2 }]) hlen1
    refine ⟨{ arg := aMap, next := (h st aMap).1.1, err := (h st aMap).1.2 } :: calls, st1,
      ?_, by simp [hcl], ?_⟩
    · simp only [rangeLoop, if_true, hview, hb, traced, hcont st aMap]
      simp only [Bool.not_true, ne_eq, not_true_eq_false, decide_False, Bool.or_self,
        Bool.false_eq_true, if_false]
      have := hloop
      simp only [traced, hcont st aMap] at this
      rw [this]
      simp
    · intro i it hi
      cases i with
      | zero =>
        simp only [List.getElem?_cons_zero, Option.some.injEq] at hi
        subst hi
        exact ⟨{ arg := aMap, next := (h st aMap).1.1, err := (h st aMap).1.2 }, by simp, hb⟩
      | succ j =>
        simp only [List.getElem?_cons_succ] at hi ⊢
        exact hcalls j it hi


theorem record_delivered {σ : Type} (s : CompactedSlice) (mp : GoMap Value)
    (later : List (GoMap Value)) (h : Handler σ) (st : σ)
    (hs : StoreInv s) (hopt : s.optimizedStorage = true)
    (hmp : WellFormed mp) (hlater : ∀ m ∈ later, WellFormed m)
    (hcont : ∀ (st : σ) (a : GoMap Value), (h st a).1 = (true, none)) :
    (Range (addAll (Add s mp) later) (traced h) (st, [])).2.1 = Run.ok none ∧
    ∃ c : Call,
      (Range (addAll (Add s mp) later) (traced h) (st, [])).2.2.2[s.data.length]? = some c ∧
      (∀ k : String, mapGet c.arg k = (mapGet mp k).filter significant) ∧
      (∀ f ∈ (addAll (Add s mp) later).fields,
        f ∉ (Add s mp).fields → mapGet c.arg f.Name = none) := by
  have hs1 : StoreInv (Add s mp) := StoreInv_Add s mp hs hmp
  obtain ⟨hsF, hoptF, ⟨ext, hext⟩, ⟨recs, hrecs⟩⟩ := addAll_facts later (Add s mp) hs1 hlater
  rw [Add_optimizedStorage, hopt] at hoptF
  have hdata : (addAll (Add s mp) later).data
      = s.data ++ compressStorage (denseRecord s mp) :: recs := by
    rw [hrecs, Add_data_dense, hopt]; simp
  generalize hsFdef : addAll (Add s mp) later = sF at hsF hoptF hext hdata ⊢
  have hidx : ∀ f ∈ sF.fields, f.Index < sF.fields.length := by
    intro f hf
    obtain ⟨n, hn⟩ := List.getElem?_of_mem hf
    have := hsF.1.2.1 n f hn
    have hlt : n < sF.fields.length := (List.getElem?_eq_some.mp hn).1
    omega
  obtain ⟨calls, st1, hloop, -, hcalls⟩ := rangeLoop_optimized_all sF.fields h sF.fields.length
    hidx hsF.1.2.2 hcont sF.data (hsF.2 hoptF)
    (List.replicate sF.fields.length Value.nil) st [] (by simp)
  have hrange : (Range sF (traced h) (st, [])).2 = (Run.ok none, (st1, calls)) := by
    simp only [Range, hoptF]
    rw [hloop]; simp
  have hitem : sF.data[s.data.length]? = some (compressStorage (denseRecord s mp)) := by
    rw [hdata, List.getElem?_append_right (Nat.le_refl _)]
    simp
  obtain ⟨c, hc, hbc⟩ := hcalls s.data.length _ hitem
  have hdl := denseRecord_length s mp hs.1 hmp.1
  have hle : (denseRecord s mp).length ≤ sF.fields.length := by
    rw [hdl, hext]; simp
  rw [(expand_compress_pad (denseRecord s mp) sF.fields.length
    (denseRecord_dense s mp hmp.2) hle).2] at hbc
  obtain ⟨aMap, hb, hget⟩ := delivered_mapping s sF mp
    (denseRecord s mp ++ List.replicate (sF.fields.length - (denseRecord s mp).length) Value.nil)
    hs.1 hsF.1 hmp.1 ⟨ext, hext⟩ (fun j => slot_append_nils _ _ j)
    (by simp only [List.length_append, List.length_replicate]; omega)
  have harg : c.arg = aMap := by
    rw [hbc] at hb
    exact Run.ok.inj hb
  refine ⟨by rw [hrange], c, by rw [hrange]; exact hc, by rw [harg]; exact hget, ?_⟩
  intro f hf hnot
  rw [harg, hget f.Name]
  have hnk : mapGet mp f.Name = none := by
    rw [mapGet_eq_none_iff]
    intro hk
    obtain ⟨i, hi⟩ := keys_registered s mp hs.1 f.Name hk
    have hlt : i < (Add s mp).fields.length := (List.getElem?_eq_some.mp hi).1
    have hiF : sF.fields[i]? = some { Name := f.Name, Index := i } := by
      rw [hext, List.getElem?_append_left hlt]; exact hi
    obtain ⟨n, hn⟩ := List.getElem?_of_mem hf
    have hin := fields_name_inj sF hsF.1 i n _ f hiF hn rfl
    subst hin
    rw [hiF] at hn
    apply hnot
    rw [← Option.some.inj hn]
    exact List.getElem?_mem hi
  rw [hnk]
  rfl

/-- C4: in compacted mode, a record added when the registry had `n` fields
and drained after later `Add` calls have grown the registry is decoded
without an out-of-range access (`Range` returns nil for a handler that always
continues), and the mapping delivered for it holds exactly that record's own
significant entries and no entry for a field registered after it. -/
theorem compacted_record_survives_registry_growth {σ τ : Type} (ops : List (Op τ))
    (mp : GoMap Value) (later : List (GoMap Value)) (h : Handler σ) (st : σ)
    (hops : WellFormedOps ops) (hmp : WellFormed mp) (hlater : ∀ m ∈ later, WellFormed m)
    (hcont : ∀ (st : σ) (a : GoMap Value), (h st a).1 = (true, none)) :
    (Range (addAll (Add (run (NewCompactedSlice true) ops) mp) later) (traced h) (st, [])).2.1
      = Run.ok none ∧
    ∃ c : Call,
      (Range (addAll (Add (run (NewCompactedSlice true) ops) mp) later)
        (traced h) (st, [])).2.2.2[(run (NewCompactedSlice true) ops).data.length]? = some c ∧
      (∀ k : String, mapGet c.arg k = (mapGet mp k).filter significant) ∧
      (∀ f ∈ (addAll (Add (run (NewCompactedSlice true) ops) mp) later).fields,
        f ∉ (Add (run (NewCompactedSlice true) ops) mp).fields → mapGet c.arg f.Name = none) := by
  exact record_delivered (run (NewCompactedSlice true) ops) mp later h st
    (StoreInv_run ops _ (StoreInv_new true) hops) (run_optimizedStorage ops _) hmp hlater hcont

theorem compacted_record_survives_registry_growth_witness :
    (Range (addAll (Add (run (NewCompactedSlice true)
          [Op.add [("a", Value.int 1)], Op.range collect [], Op.add [("b", Value.str "u")]])
          [("a", Value.int 0), ("c", Value.float 1)])
        [[("d", Value.int 4)], [("e", Value.int 5), ("a", Value.int 6)]])
      (traced collect) ([], [])).2.1 = Run.ok none ∧
    ∃ c : Call,
      (Range (addAll (Add (run (NewCompactedSlice true)
          [Op.add [("a", Value.int 1)], Op.range collect [], Op.add [("b", Value.str "u")]])
          [("a", Value.int 0), ("c", Value.float 1)])
        [[("d", Value.int 4)], [("e", Value.int 5), ("a", Value.int 6)]])
        (traced collect) ([], [])).2.2.2[(run (NewCompactedSlice true)
          [Op.add [("a", Value.int 1)], Op.range collect [],
            Op.add [("b", Value.str "u")]]).data.length]? = some c ∧
      (∀ k : String, mapGet c.arg k
        = (mapGet [("a", Value.int 0), ("c", Value.float 1)] k).filter significant) ∧
      (∀ f ∈ (addAll (Add (run (NewCompactedSlice true)
          [Op.add [("a", Value.int 1)], Op.range collect [], Op.add [("b", Value.str "u")]])
          [("a", Value.int 0), ("c", Value.float 1)])
        [[("d", Value.int 4)], [("e", Value.int 5), ("a", Value.int 6)]]).fields,
        f ∉ (Add (run (NewCompactedSlice true)
          [Op.add [("a", Value.int 1)], Op.range collect [], Op.add [("b", Value.str "u")]])
          [("a", Value.int 0), ("c", Value.float 1)]).fields → mapGet c.arg f.Name = none) :=
  compacted_record_survives_registry_growth
    [Op.add [("a", Value.int 1)], Op.range collect [], Op.add [("b", Value.str "u")]]
    [("a", Value.int 0), ("c", Value.float 1)]
    [[("d", Value.int 4)], [("e", Value.int 5), ("a", Value.int 6)]]
    collect [] ⟨by decide, by decide, trivial⟩ (by decide) (by decide) (fun _ _ => rfl)

/-! ### Each record is drained exactly once -/

theorem rangeLoop_completes {σ : Type} (opt : Bool) (fields : List field) (h : Handler σ)
    (data : List (List Value)) : ∀ (record : List Value) (st : σ) (tr : List Call),
    ∃ calls : List Call,
      (rangeLoop opt fields (traced h) data record (st, tr)).2.2 = tr ++ calls ∧
      ((rangeLoop opt fields (traced h) data record (st, tr)).1 = Run.panicked ∨
        (∃ c : Call, calls.getLast? = some c ∧ (c.next = false ∨ c.err ≠ none)) ∨
        calls.length = data.length) := by
  induction data with
  | nil =>
    intro record st tr
    exact ⟨[], by simp [rangeLoop], Or.inr (Or.inr rfl)⟩
  | cons item rest ih =>
    intro record st tr
    simp only [rangeLoop]
    cases hv : (if opt = true then uncompressStorage item record else Run.ok item) with
    | panicked => exact ⟨[], by simp, Or.inl rfl⟩
    | ok record1 =>
      simp only
      cases hb : buildMap fields record1 [] with
      | panicked => exact ⟨[], by simp, Or.inl rfl⟩
      | ok aMap =>
        simp only [traced]
        by_cases hs : (!(h st aMap).1.1 || decide ((h st aMap).1.2 ≠ none)) = true
        · rw [if_pos hs]
          refine ⟨[{ arg := aMap, next := (h st aMap).1.1, err := (h st aMap).1.2 }], rfl,
            Or.inr (Or.inl ⟨_, rfl, ?_⟩)⟩
          simp only [Bool.or_eq_true, Bool.not_eq_true', decide_eq_true_eq] at hs
          exact hs
        · rw [if_neg hs]
          obtain ⟨calls, htr, hend⟩ := ih record1 (h st aMap).2
            (tr ++ [{ arg := aMap, next := (h st aMap).1.1, err := (h st aMap).1.2 }])
          refine ⟨{ arg := aMap, next := (h st aMap).1.1, err := (h st aMap).1.2 } :: calls,
            by rw [htr]; simp, ?_⟩
          rcases hend with h1 | ⟨c, hc, hstop⟩ | h1
          · exact Or.inl h1
          · refine Or.inr (Or.inl ⟨c, ?_, hstop⟩)
            cases calls with
            | nil => simp at hc
            | cons c0 cs => rw [List.getLast?_cons_cons]; exact hc
          · exact Or.inr (Or.inr (by simp [h1]))

theorem range_empty_store {σ : Type} (s : CompactedSlice) (h : Handler σ) (st : σ)
    (hs : s.data = []) : (Range s (traced h) (st, [])).2 = (Run.ok none, (st, [])) := by
  simp [Range, hs, rangeLoop]

/-- C7: `Range` always leaves the record sequence empty, whatever the handler
does; the `Add` calls that follow buffer exactly one record each, in call
order; the next `Range` runs its loop over exactly these records, hands them
to the handler in that order, each once, up to the end unless the handler
stops or the loop panics, and leaves the sequence empty, so that a `Range`
right after it invokes no handler and returns nil, as does any `Range` on an
empty store; in compacted mode, under a handler that continues, each mapping
added since the previous `Range` is delivered exactly once, at its position. -/
theorem range_detaches_each_record_once {σ : Type} (s s1 s2 : CompactedSlice)
    (h1 h2 : Handler σ) (st1 st2 : σ) (ms : List (GoMap Value)) (calls : List Call)
    (hs1 : s1 = (Range s h1 st1).1) (hs2 : s2 = addAll s1 ms)
    (hcalls : calls = (Range s2 (traced h2) (st2, [])).2.2.2) :
    s1.data = [] ∧
    s2.data.length = ms.length ∧
    (∀ j : Nat, j ≤ ms.length → (addAll s1 (ms.take j)).data = s2.data.take j) ∧
    Range s2 (traced h2) (st2, [])
      = ({ s2 with data := [] },
          rangeLoop s2.optimizedStorage s2.fields (traced h2) s2.data
            (List.replicate s2.fields.length Value.nil) (st2, [])) ∧
    calls.length ≤ ms.length ∧
    (∀ (i : Nat) (c : Call), calls[i]? = some c →
      ∃ (item buf rec : List Value), s2.data[i]? = some item ∧
        (if s2.optimizedStorage = true then uncompressStorage item buf else Run.ok item)
          = Run.ok rec ∧
        buildMap s2.fields rec [] = Run.ok c.arg) ∧
    ((Range s2 (traced h2) (st2, [])).2.1 = Run.panicked ∨
      (∃ c : Call, calls.getLast? = some c ∧ (c.next = false ∨ c.err ≠ none)) ∨
      calls.length = ms.length) ∧
    (Range s2 (traced h2) (st2, [])).1.data = [] ∧
    (∀ (h3 : Handler σ) (st3 : σ),
      (Range (Range s2 (traced h2) (st2, [])).1 (traced h3) (st3, [])).2
        = (Run.ok none, (st3, []))) ∧
    (∀ s0 : CompactedSlice, s0.data = [] →
      (Range s0 (traced h2) (st2, [])).2 = (Run.ok none, (st2, []))) ∧
    (∀ ops : List (Op σ), s = run (NewCompactedSlice true) ops → WellFormedOps ops →
      (∀ m ∈ ms, WellFormed m) →
      (∀ (st : σ) (a : GoMap Value), (h2 st a).1 = (true, none)) →
      (Range s2 (traced h2) (st2, [])).2.1 = Run.ok none ∧
      calls.length = ms.length ∧
      ∀ (i : Nat) (m : GoMap Value), ms[i]? = some m →
        ∃ c : Call, calls[i]? = some c ∧
          ∀ k : String, mapGet c.arg k = (mapGet m k).filter significant) := by
  have hempty : s1.data = [] := by rw [hs1]; rfl
  obtain ⟨recs, hlen, hrecs⟩ := addAll_data ms s1
  rw [hempty, List.nil_append, ← hs2] at hrecs
  have hdl : s2.data.length = ms.length := by rw [hrecs, hlen]
  have htrace : (rangeLoop s2.optimizedStorage s2.fields (traced h2) s2.data
      (List.replicate s2.fields.length Value.nil) (st2, [])).2.2 = calls := by
    rw [hcalls]; rfl
  obtain ⟨calls1, htr1, hcl1, hcalls1⟩ := rangeLoop_calls s2.optimizedStorage s2.fields h2
    s2.data (List.replicate s2.fields.length Value.nil) st2 []
  rw [htrace, List.nil_append] at htr1
  subst htr1
  obtain ⟨calls2, htr2, hend⟩ := rangeLoop_completes s2.optimizedStorage s2.fields h2
    s2.data (List.replicate s2.fields.length Value.nil) st2 []
  rw [htrace, List.nil_append] at htr2
  subst htr2
  refine ⟨hempty, hdl, ?_, rfl, by omega, hcalls1, ?_, rfl, ?_, ?_, ?_⟩
  · intro j hj
    obtain ⟨recs1, hlen1, hrecs1⟩ := addAll_data (ms.take j) s1
    rw [hempty, List.nil_append] at hrecs1
    obtain ⟨recs2, -, hrecs2⟩ := addAll_data (ms.drop j) (addAll s1 (ms.take j))
    rw [← addAll_append, List.take_append_drop, ← hs2] at hrecs2
    rw [hrecs2, hrecs1]
    have : recs1.length = j := by rw [hlen1]; simp; omega
    rw [List.take_left' this]
  · rcases hend with h | h | h
    · exact Or.inl h
    · exact Or.inr (Or.inl h)
    · exact Or.inr (Or.inr (by omega))
  · intro h3 st3
    exact range_empty_store _ h3 st3 rfl
  · intro s0 h0
    exact range_empty_store s0 h2 st2 h0
  · intro ops hs hops hms hcont
    have hst : StoreInv s := by rw [hs]; exact StoreInv_run ops _ (StoreInv_new true) hops
    have hopt : s.optimizedStorage = true := by rw [hs]; exact run_optimizedStorage ops _
    have hst1 : StoreInv s1 := by rw [hs1]; exact StoreInv_Range s h1 st1 hst
    have hopt1 : s1.optimizedStorage = true := by rw [hs1]; exact hopt
    obtain ⟨hst2, hopt2, -, -⟩ := addAll_facts ms s1 hst1 hms
    rw [← hs2, hopt1] at hopt2
    rw [← hs2] at hst2
    have hidx : ∀ f ∈ s2.fields, f.Index < s2.fields.length := by
      intro f hf
      obtain ⟨n, hn⟩ := List.getElem?_of_mem hf
      have := hst2.1.2.1 n f hn
      have hlt : n < s2.fields.length := (List.getElem?_eq_some.mp hn).1
      omega
    obtain ⟨calls3, st4, hloop, hcl3, -⟩ := rangeLoop_optimized_all s2.fields h2
      s2.fields.length hidx hst2.1.2.2 hcont s2.data (hst2.2 hopt2)
      (List.replicate s2.fields.length Value.nil) st2 [] (by simp)
    have hrange : (Range s2 (traced h2) (st2, [])).2 = (Run.ok none, (st4, calls3)) := by
      simp only [Range, hopt2]
      rw [hloop]; simp
    have hc3 : calls3 = calls := by rw [hcalls, hrange]
    refine ⟨by rw [hrange], by rw [← hc3, hcl3, hdl], ?_⟩
    intro i m hi
    have hlt : i < ms.length := (List.getElem?_eq_some.mp hi).1
    have hmi : ms[i] = m := (List.getElem?_eq_some.mp hi).2
    have hsplit : ms = ms.take i ++ m :: ms.drop (i + 1) := by
      rw [← hmi, ← List.drop_eq_getElem_cons hlt, List.take_append_drop]
    have hwf1 : ∀ x ∈ ms.take i, WellFormed x := fun x hx => hms x (List.mem_of_mem_take hx)
    have hwf2 : ∀ x ∈ ms.drop (i + 1), WellFormed x := fun x hx =>
      hms x (List.mem_of_mem_drop hx)
    obtain ⟨hsti, hopti, -, -⟩ := addAll_facts (ms.take i) s1 hst1 hwf1
    rw [hopt1] at hopti
    obtain ⟨recsi, hleni, hrecsi⟩ := addAll_data (ms.take i) s1
    rw [hempty, List.nil_append] at hrecsi
    have hposi : (addAll s1 (ms.take i)).data.length = i := by
      rw [hrecsi, hleni]; simp; omega
    have hs2i : s2 = addAll (Add (addAll s1 (ms.take i)) m) (ms.drop (i + 1)) := by
      rw [hs2]
      conv_lhs => rw [hsplit]
      rw [addAll_append]
      rfl
    obtain ⟨-, c, hc, hget, -⟩ := record_delivered (addAll s1 (ms.take i)) m (ms.drop (i + 1))
      h2 st2 hsti hopti (hms m (List.getElem?_mem hi)) hwf2 hcont
    rw [hposi, ← hs2i, ← hcalls] at hc
    exact ⟨c, hc, hget⟩

theorem range_detaches_each_record_once_witness :
    (Range (addAll (Range (run (NewCompactedSlice true)
          [(Op.add [("a", Value.int 1)] : Op (List (GoMap Value)))]) collect []).1
        [[("x", Value.int 1)], [("y", Value.int 0), ("a", Value.int 2)]])
      (traced collect) ([], [])).2.2.2
      = [{ arg := [("x", Value.int 1)], next := true, err := none },
         { arg := [("a", Value.int 2)], next := true, err := none }] ∧
    (Range (run (NewCompactedSlice true)
        [(Op.add [("a", Value.int 1)] : Op (List (GoMap Value)))]) collect []).2.2
      = [[("a", Value.int 1)]] ∧
    ((Range (addAll (Range (run (NewCompactedSlice true)
          [(Op.add [("a", Value.int 1)] : Op (List (GoMap Value)))]) collect []).1
        [[("x", Value.int 1)], [("y", Value.int 0), ("a", Value.int 2)]])
      (traced collect) ([], [])).2.1 = Run.ok none ∧
     (Range (addAll (Range (run (NewCompactedSlice true)
          [(Op.add [("a", Value.int 1)] : Op (List (GoMap Value)))]) collect []).1
        [[("x", Value.int 1)], [("y", Value.int 0), ("a", Value.int 2)]])
      (traced collect) ([], [])).2.2.2.length
      = [[("x", Value.int 1)], [("y", Value.int 0), ("a", Value.int 2)]].length ∧
     ∀ (i : Nat) (m : GoMap Value),
      [[("x", Value.int 1)], [("y", Value.int 0), ("a", Value.int 2)]][i]? = some m →
        ∃ c : Call,
          (Range (addAll (Range (run (NewCompactedSlice true)
              [(Op.add [("a", Value.int 1)] : Op (List (GoMap Value)))]) collect []).1
            [[("x", Value.int 1)], [("y", Value.int 0), ("a", Value.int 2)]])
          (traced collect) ([], [])).2.2.2[i]? = some c ∧
          ∀ k : String, mapGet c.arg k = (mapGet m k).filter significant) :=
  ⟨by decide, by decide,
   (range_detaches_each_record_once
      (run (NewCompactedSlice true) [(Op.add [("a", Value.int 1)] : Op (List (GoMap Value)))])
      _ _ collect collect [] []
      [[("x", Value.int 1)], [("y", Value.int 0), ("a", Value.int 2)]] _
      rfl rfl rfl).2.2.2.2.2.2.2.2.2.2
      [Op.add [("a", Value.int 1)]] rfl ⟨by decide, trivial⟩ (by decide) (fun _ _ => rfl)⟩

/-! ### The encoding rule -/

theorem flushNils_eq_runToken (k : Nat) : flushNils [] k = runToken k := by
  match k with
  | 0 => rfl
  | 1 => rfl
  | k + 2 => rfl

theorem compressLoop_eq_emitRuns (d : List Value) : ∀ k : Nat,
    compressLoop d [] k = emitRuns (presentRuns k d) := by
  induction d with
  | nil => intro k; rfl
  | cons x rest ih =>
    intro k
    by_cases hx : x = Value.nil
    · simp only [compressLoop, presentRuns, hx, ne_eq, not_true_eq_false, if_false, if_true]
      exact ih (k + 1)
    · simp only [compressLoop, presentRuns, hx, ne_eq, not_false_eq_true, if_true, if_false,
        emitRuns]
      rw [compressLoop_acc, ih 0, flushNils_eq_runToken]
      simp

theorem compressLoop_nil_run (k : Nat) : ∀ (d acc : List Value) (c : Nat),
    compressLoop (List.replicate k Value.nil ++ d) acc c = compressLoop d acc (c + k) := by
  induction k with
  | zero => intro d acc c; simp
  | succ k ih =>
    intro d acc c
    have hstep : compressLoop (List.replicate (k + 1) Value.nil ++ d) acc c
        = compressLoop (List.replicate k Value.nil ++ d) acc (c + 1) := by
      simp [List.replicate_succ, compressLoop]
    rw [hstep, ih d acc (c + 1)]
    congr 1
    omega

theorem compressLoop_present_cons (v : Value) (rest : List Value) (k : Nat)
    (hv : v ≠ Value.nil) :
    compressLoop (v :: rest) [] k = runToken k ++ v :: compressLoop rest [] 0 := by
  simp only [compressLoop, ne_eq, hv, not_false_eq_true, if_true]
  rw [compressLoop_acc, flushNils_eq_runToken]
  simp

theorem compressLoop_split_after_present (pre : List Value) (u : Value) (d : List Value)
    (hu : u ≠ Value.nil) : ∀ c : Nat,
    compressLoop (pre ++ u :: d) [] c = compressLoop (pre ++ [u]) [] c ++ compressLoop d [] 0 := by
  induction pre with
  | nil =>
    intro c
    simp only [List.nil_append]
    rw [compressLoop_present_cons u d c hu, compressLoop_present_cons u [] c hu]
    simp [compressLoop]
  | cons x rest ih =>
    intro c
    by_cases hx : x = Value.nil
    · simp only [List.cons_append, compressLoop, hx, ne_eq, not_true_eq_false, if_false]
      exact ih (c + 1)
    · simp only [List.cons_append]
      rw [compressLoop_present_cons x _ c hx, compressLoop_present_cons x _ c hx, ih 0]
      simp

theorem mem_runToken (k : Nat) (x : Value) (h : x ∈ runToken k) :
    x = Value.nil ∨ ∃ m : Nat, 2 ≤ m ∧ x = Value.nilGroup (Int.ofNat m) := by
  match k, h with
  | 1, h => simp [runToken] at h; exact Or.inl h
  | k + 2, h =>
    simp only [runToken, List.mem_singleton] at h
    exact Or.inr ⟨k + 2, by omega, h⟩

theorem mem_compressLoop (d : List Value) : ∀ (k : Nat) (x : Value),
    x ∈ compressLoop d [] k →
    (x ∈ d ∧ x ≠ Value.nil) ∨ x = Value.nil ∨
      ∃ m : Nat, 2 ≤ m ∧ x = Value.nilGroup (Int.ofNat m) := by
  induction d with
  | nil => intro k x h; simp [compressLoop] at h
  | cons y rest ih =>
    intro k x h
    by_cases hy : y = Value.nil
    · simp only [compressLoop, hy, ne_eq, not_true_eq_false, if_false] at h
      rcases ih (k + 1) x h with h1 | h1 | h1
      · exact Or.inl ⟨List.mem_cons_of_mem _ h1.1, h1.2⟩
      · exact Or.inr (Or.inl h1)
      · exact Or.inr (Or.inr h1)
    · rw [compressLoop_present_cons y rest k hy] at h
      simp only [List.mem_append, List.mem_cons] at h
      rcases h with h1 | h1 | h1
      · exact Or.inr (mem_runToken k x h1)
      · subst h1; exact Or.inl ⟨List.mem_cons_self _ _, hy⟩
      · rcases ih 0 x h1 with h2 | h2 | h2
        · exact Or.inl ⟨List.mem_cons_of_mem _ h2.1, h2.2⟩
        · exact Or.inr (Or.inl h2)
        · exact Or.inr (Or.inr h2)

/-- C15: `compressStorage` is the reference encoder: each present value is
preceded by the token of the maximal absent run before it (nothing for a run
of 0, one nil placeholder for 1, one run marker carrying `k` for `k ≥ 2`);
so every run marker in the encoding of a dense array carries a count of at
least 2, and a lone interior absent slot is encoded as a nil placeholder. -/
theorem compress_is_reference_encoding (d : List Value) :
    compressStorage d = referenceEncode d ∧
    (∀ (k : Nat) (v : Value) (rest : List Value), v ≠ Value.nil →
      compressStorage (List.replicate k Value.nil ++ v :: rest)
        = runToken k ++ v :: compressStorage rest) ∧
    (Dense d → ∀ n : Int, Value.nilGroup n ∈ compressStorage d → 2 ≤ n) ∧
    (∀ (pre rest : List Value) (u v : Value), u ≠ Value.nil → v ≠ Value.nil →
      compressStorage (pre ++ u :: Value.nil :: v :: rest)
        = compressStorage (pre ++ [u]) ++ Value.nil :: v :: compressStorage rest) := by
  refine ⟨compressLoop_eq_emitRuns d 0, ?_, ?_, ?_⟩
  · intro k v rest hv
    unfold compressStorage
    rw [compressLoop_nil_run, compressLoop_present_cons v rest (0 + k) hv, Nat.zero_add]
  · intro hd n hn
    rcases mem_compressLoop d 0 _ hn with h | h | ⟨m, hm, h⟩
    · have := hd _ h.1
      simp [Value.isMarker] at this
    · exact Value.noConfusion h
    · injection h with h
      rw [h]
      have : ((2 : Nat) : Int) ≤ (m : Int) := Int.ofNat_le.mpr hm
      exact this
  · intro pre rest u v hu hv
    unfold compressStorage
    rw [compressLoop_split_after_present pre u _ hu 0]
    congr 1
    have := compressLoop_nil_run 1 (v :: rest) [] 0
    simp only [List.replicate_one, List.singleton_append, Nat.zero_add] at this
    rw [this, compressLoop_present_cons v rest 1 hv]
    rfl

theorem compressLoop_trailing_nils (k : Nat) (d : List Value) : ∀ (acc : List Value) (c : Nat),
    compressLoop (d ++ List.replicate k Value.nil) acc c = compressLoop d acc c := by
  induction d with
  | nil =>
    intro acc c
    have := compressLoop_nil_run k [] acc c
    simp only [List.append_nil] at this
    simp only [List.nil_append, this, compressLoop]
  | cons x rest ih =>
    intro acc c
    simp only [List.cons_append, compressLoop]
    split
    · exact ih _ _
    · exact ih _ _

theorem compressLoop_last (d : List Value) : ∀ (c : Nat) (x : Value),
    (compressLoop d [] c).getLast? = some x → x ≠ Value.nil ∧ x ∈ d := by
  induction d with
  | nil => intro c x h; simp [compressLoop] at h
  | cons y rest ih =>
    intro c x h
    by_cases hy : y = Value.nil
    · simp only [compressLoop, hy, ne_eq, not_true_eq_false, if_false] at h
      exact ⟨(ih (c + 1) x h).1, List.mem_cons_of_mem _ (ih (c + 1) x h).2⟩
    · rw [compressLoop_present_cons y rest c hy] at h
      have hsplit : runToken c ++ y :: compressLoop rest [] 0
          = (runToken c ++ [y]) ++ compressLoop rest [] 0 := by simp
      rw [hsplit, List.getLast?_append] at h
      cases hl : (compressLoop rest [] 0).getLast? with
      | none =>
        rw [hl, List.getLast?_concat] at h
        simp only [Option.none_or, Option.some.injEq] at h
        subst h
        exact ⟨hy, List.mem_cons_self _ _⟩
      | some z =>
        rw [hl] at h
        simp only [Option.or, Option.some.injEq] at h
        subst h
        exact ⟨(ih 0 z hl).1, List.mem_cons_of_mem _ (ih 0 z hl).2⟩

/-- C16: absent slots after the last present value are dropped by the
encoder: `compressStorage (d ++ k absent slots) = compressStorage d`, an
all-absent array encodes to the empty sequence, and a non-empty encoding
ends with a present value of `d`. -/
theorem trailing_absence_is_dropped (d : List Value) (k : Nat) :
    compressStorage (d ++ List.replicate k Value.nil) = compressStorage d ∧
    compressStorage (List.replicate k Value.nil) = [] ∧
    (∀ x : Value, (compressStorage d).getLast? = some x → x ≠ Value.nil ∧ x ∈ d) ∧
    (compressStorage d ≠ [] → ∃ x : Value, (compressStorage d).getLast? = some x) := by
  refine ⟨compressLoop_trailing_nils k d [] 0, compressLoop_nils k 0, compressLoop_last d 0, ?_⟩
  intro hne
  cases hl : (compressStorage d).getLast? with
  | none => exact absurd (List.getLast?_eq_none_iff.mp hl) hne
  | some x => exact ⟨x, rfl⟩

theorem compressLoop_all_present (d : List Value) (h : ∀ x ∈ d, x ≠ Value.nil) :
    compressLoop d [] 0 = d := by
  induction d with
  | nil => rfl
  | cons y rest ih =>
    rw [compressLoop_present_cons y rest 0 (h y (List.mem_cons_self _ _)),
      ih (fun x hx => h x (List.mem_cons_of_mem _ hx))]
    rfl

/-- C17: a dense array without absent slots encodes to itself, element for
element; the encoding holds no nil placeholder and no run marker. -/
theorem full_record_encodes_to_itself (d : List Value) (hd : Dense d)
    (hfull : ∀ x ∈ d, x ≠ Value.nil) :
    compressStorage d = d ∧
    Value.nil ∉ compressStorage d ∧
    (∀ x ∈ compressStorage d, x.isMarker = false) := by
  have h := compressLoop_all_present d hfull
  unfold compressStorage
  rw [h]
  exact ⟨rfl, fun hn => hfull _ hn rfl, hd⟩

theorem full_record_encodes_to_itself_witness :
    compressStorage [Value.int 1, Value.str "", Value.float 0, Value.other 7]
      = [Value.int 1, Value.str "", Value.float 0, Value.other 7] ∧
    Value.nil ∉ compressStorage [Value.int 1, Value.str "", Value.float 0, Value.other 7] ∧
    (∀ x ∈ compressStorage [Value.int 1, Value.str "", Value.float 0, Value.other 7],
      x.isMarker = false) :=
  full_record_encodes_to_itself _ (by decide) (by decide)

theorem compressLoop_length (d : List Value) : ∀ (acc : List Value) (c : Nat),
    (compressLoop d acc c).length ≤ acc.length + d.length + min c 1 := by
  induction d with
  | nil => intro acc c; simp [compressLoop]
  | cons y rest ih =>
    intro acc c
    simp only [compressLoop]
    split
    · have h1 := ih (flushNils acc c ++ [y]) 0
      have h2 : (flushNils acc c).length ≤ acc.length + min c 1 := by
        match c with
        | 0 => simp [flushNils]
        | 1 => simp [flushNils]
        | k + 2 => simp [flushNils]
      have h3 : (flushNils acc c ++ [y]).length = (flushNils acc c).length + 1 := by simp
      rw [h3] at h1
      simp only [List.length_cons]
      omega
    · have h1 := ih acc (c + 1)
      simp only [List.length_cons]
      omega

/-- C20: compaction never lengthens a record:
`len(compressStorage(d)) ≤ len(d)` for every array `d`. -/
theorem compress_never_lengthens (d : List Value) :
    (compressStorage d).length ≤ d.length := by
  have := compressLoop_length d [] 0
  simpa [compressStorage] using this

theorem writeNils_result (k : Nat) : ∀ (out : List Value) (idx : Nat) (o : List Value) (i : Nat),
    writeNils out idx k = Run.ok (o, i) → o.length = out.length ∧ i = idx + k := by
  induction k with
  | zero =>
    intro out idx o i h
    simp only [writeNils, Run.ok.injEq, Prod.mk.injEq] at h
    exact ⟨by rw [← h.1], by rw [← h.2]; rfl⟩
  | succ k ih =>
    intro out idx o i h
    simp only [writeNils] at h
    split at h
    · obtain ⟨h1, h2⟩ := ih _ _ _ _ h
      rw [List.length_set] at h1
      exact ⟨h1, by omega⟩
    · exact Run.noConfusion h

theorem writeNils_panics (k : Nat) : ∀ (out : List Value) (idx : Nat),
    idx ≤ out.length → out.length < idx + k → writeNils out idx k = Run.panicked := by
  induction k with
  | zero => intro out idx hle h; omega
  | succ k ih =>
    intro out idx hle h
    simp only [writeNils]
    split
    · exact ih _ _ (by rw [List.length_set]; omega) (by rw [List.length_set]; omega)
    · rfl

theorem uncompressLoop_panics (inp : List Value) : ∀ (out : List Value) (idx : Nat),
    idx ≤ out.length → out.length < idx + (expand inp).length →
    uncompressLoop inp out idx = Run.panicked := by
  induction inp with
  | nil => intro out idx hle h; simp [expand] at h; omega
  | cons item rest ih =>
    intro out idx hle h
    simp only [expand, List.length_append] at h
    cases hg : item.asNilGroup with
    | none =>
      have he : expandItem item = [item] := by simp [expandItem, hg]
      rw [he] at h
      simp only [List.length_singleton] at h
      simp only [uncompressLoop, hg]
      split
      · exact ih _ _ (by rw [List.length_set]; omega) (by rw [List.length_set]; omega)
      · rfl
    | some n =>
      have he : expandItem item = List.replicate n.toNat Value.nil := by simp [expandItem, hg]
      rw [he] at h
      simp only [List.length_replicate] at h
      simp only [uncompressLoop, hg]
      cases hw : writeNils out idx n.toNat with
      | panicked => rfl
      | ok r =>
        obtain ⟨o, i⟩ := r
        obtain ⟨h1, h2⟩ := writeNils_result _ _ _ _ _ hw
        simp only
        by_cases hfit : i ≤ o.length
        · exact ih o i hfit (by omega)
        · have := writeNils_panics n.toNat out idx hle (by omega)
          rw [this] at hw
          exact Run.noConfusion hw

theorem uncompressStorage_panics (inp out : List Value)
    (h : out.length < (expand inp).length) : uncompressStorage inp out = Run.panicked := by
  unfold uncompressStorage
  rw [uncompressLoop_panics inp out 0 (Nat.zero_le _) (by omega)]

theorem uncompressStorage_length_only (inp out1 out2 : List Value)
    (h : out1.length = out2.length) :
    uncompressStorage inp out1 = uncompressStorage inp out2 := by
  by_cases hfit : (expand inp).length ≤ out1.length
  · rw [uncompressStorage_eq inp out1 hfit, uncompressStorage_eq inp out2 (by omega), h]
  · rw [uncompressStorage_panics inp out1 (by omega),
      uncompressStorage_panics inp out2 (by omega)]

/-- C18: decoding the encoding of a dense array `d` into an output buffer of
length `L ≥ len d` never takes the out-of-range branch: the call returns, and
the buffer keeps its length `L`. -/
theorem decode_stays_in_bounds (d out : List Value) (hd : Dense d)
    (hL : d.length ≤ out.length) :
    uncompressStorage (compressStorage d) out ≠ Run.panicked ∧
    ∃ r : List Value, uncompressStorage (compressStorage d) out = Run.ok r ∧
      r.length = out.length := by
  rw [decode_encode d out hd hL]
  refine ⟨fun h => Run.noConfusion h, _, rfl, ?_⟩
  simp only [List.length_append, List.length_replicate]
  omega

theorem decode_stays_in_bounds_witness :
    uncompressStorage (compressStorage [Value.nil, Value.nil, Value.int 3, Value.nil])
      [Value.int 9, Value.int 9, Value.int 9, Value.int 9, Value.int 9] ≠ Run.panicked ∧
    ∃ r : List Value,
      uncompressStorage (compressStorage [Value.nil, Value.nil, Value.int 3, Value.nil])
        [Value.int 9, Value.int 9, Value.int 9, Value.int 9, Value.int 9] = Run.ok r ∧
      r.length = [Value.int 9, Value.int 9, Value.int 9, Value.int 9, Value.int 9].length :=
  decode_stays_in_bounds _ _ (by decide) (by decide)

/-- C19: what `uncompressStorage` leaves in the output buffer does not depend
on what the buffer held before: two buffers of the same length `L ≥ len d`
end up equal, `d` followed by absent slots; and the loop of `Range`, which
reuses one buffer for all records, behaves the same whatever that buffer
holds when a record is decoded. -/
theorem decode_ignores_previous_buffer_content {σ : Type} (d out1 out2 : List Value)
    (hd : Dense d) (hlen : out1.length = out2.length) (hL : d.length ≤ out1.length) :
    uncompressStorage (compressStorage d) out1
      = Run.ok (d ++ List.replicate (out1.length - d.length) Value.nil) ∧
    uncompressStorage (compressStorage d) out2
      = Run.ok (d ++ List.replicate (out1.length - d.length) Value.nil) ∧
    (∀ (fields : List field) (handler : Handler σ) (data : List (List Value)) (st : σ),
      rangeLoop true fields handler data out1 st = rangeLoop true fields handler data out2 st) := by
  refine ⟨decode_encode d out1 hd hL, ?_, ?_⟩
  · rw [decode_encode d out2 hd (by omega), hlen]
  · intro fields handler data st
    cases data with
    | nil => rfl
    | cons item rest =>
      simp only [rangeLoop, if_true]
      rw [uncompressStorage_length_only item out1 out2 hlen]

theorem decode_ignores_previous_buffer_content_witness :
    uncompressStorage (compressStorage [Value.nil, Value.int 3, Value.nil])
        [Value.int 7, Value.int 8, Value.int 9, Value.str "old"]
      = Run.ok ([Value.nil, Value.int 3, Value.nil]
          ++ List.replicate ([Value.int 7, Value.int 8, Value.int 9, Value.str "old"].length
              - [Value.nil, Value.int 3, Value.nil].length) Value.nil) ∧
    uncompressStorage (compressStorage [Value.nil, Value.int 3, Value.nil])
        [Value.nil, Value.nil, Value.nil, Value.nil]
      = Run.ok ([Value.nil, Value.int 3, Value.nil]
          ++ List.replicate ([Value.int 7, Value.int 8, Value.int 9, Value.str "old"].length
              - [Value.nil, Value.int 3, Value.nil].length) Value.nil) ∧
    (∀ (fields : List field) (handler : Handler Unit) (data : List (List Value)) (st : Unit),
      rangeLoop true fields handler data
          [Value.int 7, Value.int 8, Value.int 9, Value.str "old"] st
        = rangeLoop true fields handler data [Value.nil, Value.nil, Value.nil, Value.nil] st) :=
  decode_ignores_previous_buffer_content _ _ _ (by decide) (by decide) (by decide)

theorem run_fields_ext {σ : Type} (ops : List (Op σ)) : ∀ s : CompactedSlice, RegInv s →
    ∃ ext : List field, (run s ops).fields = s.fields ++ ext := by
  induction ops with
  | nil => intro s _; exact ⟨[], by simp [run]⟩
  | cons op rest ih =>
    intro s h
    obtain ⟨ext2, h2⟩ := ih (step s op) (RegInv_step s op h)
    have h1 : ∃ ext1 : List field, (step s op).fields = s.fields ++ ext1 := by
      cases op with
      | add data => exact Add_fields_ext s data h
      | range handler st => exact ⟨[], by simp [step, Range]⟩
    obtain ⟨ext1, h1⟩ := h1
    refine ⟨ext1 ++ ext2, ?_⟩
    show (run (step s op) rest).fields = _
    rw [h2, h1, List.append_assoc]

/-- C11: on a registered name `index` returns the recorded index and changes
nothing; on an unseen name it returns the registry's size before the call and
appends exactly that one field, every other name keeping its field; and the
field at a position never changes afterwards, so the registry only grows and
no index is reused or reassigned. -/
theorem index_assigns_once {σ : Type} (b : Bool) (ops : List (Op σ)) (name : String) :
    (∀ f : field, mapGet (run (NewCompactedSlice b) ops).fieldNames name = some f →
      index (run (NewCompactedSlice b) ops) name = (run (NewCompactedSlice b) ops, f.Index)) ∧
    (mapGet (run (NewCompactedSlice b) ops).fieldNames name = none →
      (index (run (NewCompactedSlice b) ops) name).2
        = (run (NewCompactedSlice b) ops).fieldNames.length ∧
      (run (NewCompactedSlice b) ops).fieldNames.length
        = (run (NewCompactedSlice b) ops).fields.length ∧
      (index (run (NewCompactedSlice b) ops) name).1.fields
        = (run (NewCompactedSlice b) ops).fields
            ++ [{ Name := name, Index := (run (NewCompactedSlice b) ops).fields.length }] ∧
      mapGet (index (run (NewCompactedSlice b) ops) name).1.fieldNames name
        = some { Name := name, Index := (run (NewCompactedSlice b) ops).fields.length } ∧
      (∀ k : String, k ≠ name →
        mapGet (index (run (NewCompactedSlice b) ops) name).1.fieldNames k
          = mapGet (run (NewCompactedSlice b) ops).fieldNames k) ∧
      (∀ g ∈ (run (NewCompactedSlice b) ops).fields,
        g.Index < (run (NewCompactedSlice b) ops).fields.length)) ∧
    (∀ (later : List (Op σ)) (i : Nat) (f : field),
      (run (NewCompactedSlice b) ops).fields[i]? = some f →
      (run (run (NewCompactedSlice b) ops) later).fields[i]? = some f ∧
      mapGet (run (run (NewCompactedSlice b) ops) later).fieldNames f.Name = some f) := by
  have hreg : RegInv (run (NewCompactedSlice b) ops) := RegInv_run ops _ (RegInv_new b)
  generalize run (NewCompactedSlice b) ops = s at hreg ⊢
  have hlen : s.fieldNames.length = s.fields.length := by rw [hreg.1]; simp
  refine ⟨?_, ?_, ?_⟩
  · intro f hf
    simp only [index, hf]
  · intro hnone
    have hk : name ∉ mapKeys s.fieldNames := (mapGet_eq_none_iff _ _).mp hnone
    refine ⟨?_, hlen, ?_, ?_, ?_, ?_⟩
    · simp only [index, hnone]
    · simp only [index, hnone, hlen]
    · simp only [index, hnone, hlen, mapGet_mapSet, if_true]
    · intro k hne
      simp only [index, hnone, mapGet_mapSet, Ne.symm hne, if_false]
    · intro g hg
      obtain ⟨n, hn⟩ := List.getElem?_of_mem hg
      have := hreg.2.1 n g hn
      have hlt : n < s.fields.length := (List.getElem?_eq_some.mp hn).1
      omega
  · intro later i f hf
    obtain ⟨ext, hext⟩ := run_fields_ext later s hreg
    have hreg2 : RegInv (run s later) := RegInv_run later s hreg
    have hlt : i < s.fields.length := (List.getElem?_eq_some.mp hf).1
    have hf2 : (run s later).fields[i]? = some f := by
      rw [hext, List.getElem?_append_left hlt]; exact hf
    refine ⟨hf2, ?_⟩
    rw [hreg2.1]
    exact mapGet_fields_of_mem _ _ hreg2.2.2 (List.getElem?_mem hf2)

/-! ### Concurrent calls -/

theorem indexStep_alone (fieldName : String) (s : CompactedSlice) :
    indexPair fieldName (s, IndexPC.start, IndexPC.start) [false, false, false]
      = ((index s fieldName).1, IndexPC.returned (index s fieldName).2, IndexPC.start) := by
  simp only [indexPair, indexStep, index]
  cases mapGet s.fieldNames fieldName <;> rfl

theorem addStep_alone (data : GoMap Value) (s : CompactedSlice) :
    (addStep data (addStep data (addStep data s AddPC.start).1 (addStep data s AddPC.start).2).1
      (addStep data (addStep data s AddPC.start).1 (addStep data s AddPC.start).2).2)
      = (Add s data, AddPC.done) := rfl

theorem range_is_detach_then_loop {σ : Type} (s : CompactedSlice) (handler : Handler σ) (st : σ) :
    Range s handler st
      = ((detach s).2.2,
          rangeLoop s.optimizedStorage (detach s).1 handler (detach s).2.1
            (List.replicate s.fields.length Value.nil) st) := rfl

/-- C12 (failing input): two concurrent first-time calls `index("x")` on a
fresh container, scheduled "both look up and miss; the first builds and
inserts; the second builds and inserts", return different indices 0 and 1 and
leave two entries for `x` in the ordered field list. -/
theorem concurrent_index_registers_twice :
    indexPair "x" (NewCompactedSlice true, IndexPC.start, IndexPC.start)
        [false, true, false, false, true, true]
      = ({ optimizedStorage := true,
           fieldNames := [("x", { Name := "x", Index := 1 })],
           fields := [{ Name := "x", Index := 0 }, { Name := "x", Index := 1 }],
           data := [], size := 0 },
         IndexPC.returned 0, IndexPC.returned 1) ∧
    (indexPair "x" (NewCompactedSlice true, IndexPC.start, IndexPC.start)
        [false, true, false, true, false, true]).1.fields
      = [{ Name := "x", Index := 0 }, { Name := "x", Index := 0 }] := by
  decide

/-- C13 (failing input): `Add` appends without the lock of `Range`. Scheduled
around a detach, the store afterwards holds again the record `Range` has
detached, so it is handed to two `Range` calls; scheduled around another
`Add`, the record of that other `Add` is lost. -/
theorem unlocked_append_races_with_detach :
    addAroundDetach [("y", Value.int 2)] (Add (NewCompactedSlice true) [("x", Value.int 1)])
      = ([[Value.int 1]],
         { optimizedStorage := true,
           fieldNames := [("x", { Name := "x", Index := 0 }), ("y", { Name := "y", Index := 1 })],
           fields := [{ Name := "x", Index := 0 }, { Name := "y", Index := 1 }],
           data := [[Value.int 1], [Value.nil, Value.int 2]], size := 1 }) ∧
    (addAroundAdd [("x", Value.int 1)] [("y", Value.int 2)] (NewCompactedSlice true)).data
      = [[Value.int 1]] := by
  decide

/-! ### Download -/

theorem OpenReaderFromURL_error (w : World) (rawURL : String) :
    (OpenReaderFromURL w rawURL).2.2 ≠ none → (OpenReaderFromURL w rawURL).1 = none := by
  unfold OpenReaderFromURL
  split
  · intro _; rfl
  · split
    · split
      · intro _; rfl
      · intro h; exact absurd rfl h
    · split
      · split
        · intro _; rfl
        · intro h; exact absurd rfl h
      · intro _; rfl

theorem Download_panics_on_open_error (w : World) (objectURL : String)
    (h : (OpenReaderFromURL w objectURL).2.2 ≠ none) : Download w objectURL = Run.panicked := by
  have hr := OpenReaderFromURL_error w objectURL h
  unfold Download
  generalize OpenReaderFromURL w objectURL = r at h hr
  obtain ⟨reader, mime, err⟩ := r
  simp only at h hr
  subst hr
  simp [h]

/-- C14 (failing input): for a URL that does not parse, a URL with an
unsupported scheme and a `file` URL whose file is missing, `OpenReaderFromURL`
returns a non-nil error and `Download` panics instead of returning it. -/
theorem download_panics_when_open_fails :
    (OpenReaderFromURL sampleWorld "%zz").2.2 ≠ none ∧
    Download sampleWorld "%zz" = Run.panicked ∧
    (OpenReaderFromURL sampleWorld "ftp://host/a.txt").2.2 ≠ none ∧
    Download sampleWorld "ftp://host/a.txt" = Run.panicked ∧
    (OpenReaderFromURL sampleWorld "file:///missing.txt").2.2 ≠ none ∧
    Download sampleWorld "file:///missing.txt" = Run.panicked := by
  have h1 : (OpenReaderFromURL sampleWorld "%zz").2.2 ≠ none := by decide
  have h2 : (OpenReaderFromURL sampleWorld "ftp://host/a.txt").2.2 ≠ none := by decide
  have h3 : (OpenReaderFromURL sampleWorld "file:///missing.txt").2.2 ≠ none := by decide
  exact ⟨h1, Download_panics_on_open_error _ _ h1, h2, Download_panics_on_open_error _ _ h2,
    h3, Download_panics_on_open_error _ _ h3⟩

end Compacted
